import Mathlib

/-!
Verification of the zoom-pan canvas engine (ZoomPan2D, CanvasLayer,
HistoryManager, StrokeCommand) against its natural-language specification.

The embedding works over exact rationals. The program stores zoom as a
logarithm and converts with exp/log; since exp is strictly monotone, range
statements about exp(logZ) are stated equivalently in log space, and
functions of the linear zoom value z = exp(currentLogZ) take z as an
explicit positive rational parameter, exactly as the source functions do
(for example clampPanForDocMode receives z as an argument).

Pixel rasters are modelled as total functions from integer coordinates to
an optional colour (none = transparent).  The browser rasterizer invoked by
context.stroke and context.arc is external to the repository; it is
modelled by centre sampling: a pixel is inked when its centre lies in the
stroked capsule (segment dilated by half the line width, round caps) or in
the filled disk.
-/

/-- Modelled from the spec: the clamp helper imported from src/lib/utils is
not present in the sources.  The inlined clamp in setZoomRange
(zoom-pan-2d.ts line 761) computes min hi (max lo x), which is the form
used here. -/
def clampQ (x lo hi : ℚ) : ℚ := min hi (max lo x)

attribute [local semireducible] Rat.add Rat.mul Rat.inv Rat.sub

/-- Floor of a rational, matching JS Math.floor (rounds toward minus
infinity).  Defined through Int.fdiv so that it evaluates by kernel
reduction. -/
def qFloor (q : ℚ) : ℤ := Int.fdiv q.num q.den

/-- Ceiling of a rational, matching JS Math.ceil. -/
def qCeil (q : ℚ) : ℤ := -(qFloor (-q))

/-! ## Pan clamping (ZoomPan2D.clampPanForDocMode, zoom-pan-2d.ts lines 531-605) -/

/-- Pan clamp mode of ZoomPan2D (option panClampMode). -/
inductive PanClampMode where
  | margin
  | minVisible
deriving DecidableEq

/-- The inputs of clampPanForDocMode that are fields of ZoomPan2D: the CSS
pixel canvas size W H (canvas.width / dpr in the source), the document
rectangle, the screen margins and the minVisiblePx option. -/
structure ClampEnv where
  W : ℚ
  H : ℚ
  docX : ℚ
  docY : ℚ
  docW : ℚ
  docH : ℚ
  marginL : ℚ
  marginR : ℚ
  marginT : ℚ
  marginB : ℚ
  minVisiblePx : ℚ
deriving DecidableEq

/-- ZoomPan2D.clampPanForDocMode (zoom-pan-2d.ts lines 531-605), the
document pan clamp.  Takes the current zoom z (exp of currentLogZ at the
call sites) and the pan (tx, ty); returns the clamped pan. -/
def clampPanForDocMode (e : ClampEnv) (docEnabled : Bool) (mode : PanClampMode)
    (z tx ty : ℚ) : ℚ × ℚ :=
  if !docEnabled then (tx, ty) else
  let docLw := e.docX
  let docTw := e.docY
  let docRw := e.docX + e.docW
  let docBw := e.docY + e.docH
  match mode with
  | .margin =>
    let txMax := e.marginL - z * docLw
    let txMin := (e.W - e.marginR) - z * docRw
    let tyMax := e.marginT - z * docTw
    let tyMin := (e.H - e.marginB) - z * docBw
    let availW := max 1 (e.W - (e.marginL + e.marginR))
    let availH := max 1 (e.H - (e.marginT + e.marginB))
    let tx1 := if z * e.docW ≤ availW
      then e.marginL + (availW - z * e.docW) / 2 - z * e.docX
      else min txMax (max txMin tx)
    let ty1 := if z * e.docH ≤ availH
      then e.marginT + (availH - z * e.docH) / 2 - z * e.docY
      else min tyMax (max tyMin ty)
    (tx1, ty1)
  | .minVisible =>
    let docScreenW := z * e.docW
    let docScreenH := z * e.docH
    let minVisX := min e.minVisiblePx docScreenW
    let minVisY := min e.minVisiblePx docScreenH
    let txMax := (e.W - minVisX) - z * docLw
    let txMin := minVisX - z * docRw
    let tyMax := (e.H - minVisY) - z * docTw
    let tyMin := minVisY - z * docBw
    let tx1 := if txMin ≤ txMax then min txMax (max txMin tx) else (txMin + txMax) / 2
    let ty1 := if tyMin ≤ tyMax then min tyMax (max tyMin ty) else (tyMin + tyMax) / 2
    (tx1, ty1)

/-- The concrete scenario of claim C1: 1000 by 1000 canvas, document
(0, 0, 2000, 2000), minVisiblePx 30, no margins. -/
def c1Env : ClampEnv :=
  { W := 1000, H := 1000, docX := 0, docY := 0, docW := 2000, docH := 2000,
    marginL := 0, marginR := 0, marginT := 0, marginB := 0, minVisiblePx := 30 }

/-- C1 counterexample: in minVisible mode with the C1 scenario and pan
(1e6, 1e6), the clamp yields tx = 970, not -1970 as the claim states.
Panning far to the positive side is limited by the upper bound
(W - minVisX) - z * docL = 970, not by the lower bound 30 - 2000. -/
theorem c1_counterexample :
    (clampPanForDocMode c1Env true .minVisible 1 1000000 1000000).1 = 970 ∧
    (clampPanForDocMode c1Env true .minVisible 1 1000000 1000000).1 ≠ -1970 := by
  constructor
  · decide
  · decide

/-- C1 amended: in the C1 scenario the clamp pins the pan to (970, 970),
that is z * docL + tx = W - minVisiblePx: the document keeps exactly
minVisiblePx = 30 CSS pixels visible at the right screen edge (the claim
had the document pushed off the wrong side, giving tx = -1970). -/
theorem c1_amended :
    clampPanForDocMode c1Env true .minVisible 1 1000000 1000000 = (970, 970) ∧
    1 * (c1Env.docX + c1Env.docW) +
      (clampPanForDocMode c1Env true .minVisible 1 1000000 1000000).1
      = c1Env.W + c1Env.docW - c1Env.minVisiblePx ∧
    1 * c1Env.docX + (clampPanForDocMode c1Env true .minVisible 1 1000000 1000000).1
      = c1Env.W - c1Env.minVisiblePx := by
  refine ⟨by decide, by decide, by decide⟩

/-- The concrete scenario refuting claim C6: canvas 100 by 100, margins
left 60 and right 39.5 leave only 0.5 CSS pixels, less than the floor of 1
that the code applies; document width 0.4 at zoom 1. -/
def c6Env : ClampEnv :=
  { W := 100, H := 100, docX := 0, docY := 0, docW := 2/5, docH := 2/5,
    marginL := 60, marginR := 79/2, marginT := 0, marginB := 0, minVisiblePx := 30 }

/-- C6 counterexample: with availW = W - marginL - marginR = 0.5 the claim
asserts tx = marginL + (availW - z docW)/2 - z docX = 60.05, but the code
floors the available size at 1 CSS pixel (availW = max(1, ...)), giving
tx = 60.3. -/
theorem c6_counterexample :
    (clampPanForDocMode c6Env true .margin 1 0 0).1 = 603/10 ∧
    (clampPanForDocMode c6Env true .margin 1 0 0).1
      ≠ c6Env.marginL + ((c6Env.W - c6Env.marginL - c6Env.marginR) - 1 * c6Env.docW) / 2
        - 1 * c6Env.docX := by
  constructor
  · decide
  · decide

/-- C6 amended: in margin mode, whenever the document is enabled and
z * docW ≤ availW with availW = max(1, W - marginL - marginR) (the code
floors the available viewport at 1 CSS pixel, which the claim omitted),
the clamp step centres the document: tx = marginL + (availW - z docW)/2
- z docX, and symmetrically for y with availH = max(1, H - marginT -
marginB).  This holds for every camera state, document rectangle and
margins. -/
theorem c6_amended (e : ClampEnv) (z tx ty : ℚ) :
    (z * e.docW ≤ max 1 (e.W - (e.marginL + e.marginR)) →
      (clampPanForDocMode e true .margin z tx ty).1
        = e.marginL + (max 1 (e.W - (e.marginL + e.marginR)) - z * e.docW) / 2 - z * e.docX) ∧
    (z * e.docH ≤ max 1 (e.H - (e.marginT + e.marginB)) →
      (clampPanForDocMode e true .margin z tx ty).2
        = e.marginT + (max 1 (e.H - (e.marginT + e.marginB)) - z * e.docH) / 2 - z * e.docY) := by
  constructor
  · intro hx
    simp only [clampPanForDocMode, Bool.not_true, Bool.false_eq_true, if_false]
    simp [hx]
  · intro hy
    simp only [clampPanForDocMode, Bool.not_true, Bool.false_eq_true, if_false]
    simp [hy]

/-- C6 witness: the amended centring formula evaluated at a concrete
state: canvas 800 by 600, margins 50 everywhere, document (0,0,700,700)
at zoom 1/2 is centred at tx = 50 + (700 - 350)/2 = 225. -/
theorem c6_witness :
    (clampPanForDocMode
      { W := 800, H := 600, docX := 0, docY := 0, docW := 700, docH := 700,
        marginL := 50, marginR := 50, marginT := 50, marginB := 50, minVisiblePx := 30 }
      true .margin (1/2) 3 4).1
      = 50 + (700 - (1/2) * 700) / 2 - (1/2) * 0 := by
  have h := (c6_amended
    { W := 800, H := 600, docX := 0, docY := 0, docW := 700, docH := 700,
      marginL := 50, marginR := 50, marginT := 50, marginB := 50, minVisiblePx := 30 }
    (1/2) 3 4).1 (by decide)
  rw [h]
  decide

/-! ## The zoom step of the animation loop (ZoomPan2D.loop, zoom-pan-2d.ts lines 232-245) -/

/-- Steps A and B of ZoomPan2D loop (zoom-pan-2d.ts lines 232-245): after
easing currentLogZ, the pan is compensated so that the anchor keeps its
world point.  zPrev = exp(currentLogZ) before the ease and zNow after it;
the source computes them with Math.exp, here they are the two positive
zoom values.  Returns the new (tx, ty). -/
def loopAnchorComp (zPrev zNow ax ay tx ty : ℚ) : ℚ × ℚ :=
  if zNow ≠ zPrev then
    (ax - (ax - tx) * (zNow / zPrev), ay - (ay - ty) * (zNow / zPrev))
  else (tx, ty)

/-- C5: during an animation tick that eases currentLogZ while nothing else
changes tx and ty, the world point under the screen anchor is unchanged:
(anchorX - tx) / z is the same before and after the zoom step, for every
camera state and anchor, and likewise for y.  zPrev and zNow are the
exponentials of the log zoom before and after the ease, hence positive. -/
theorem c5_anchor_invariant (zPrev zNow ax ay tx ty : ℚ)
    (hp : 0 < zPrev) (hn : 0 < zNow) :
    (ax - (loopAnchorComp zPrev zNow ax ay tx ty).1) / zNow = (ax - tx) / zPrev ∧
    (ay - (loopAnchorComp zPrev zNow ax ay tx ty).2) / zNow = (ay - ty) / zPrev := by
  unfold loopAnchorComp
  by_cases h : zNow = zPrev
  · subst h
    simp
  · rw [if_pos h]
    constructor
    · field_simp
      ring
    · field_simp
      ring

/-- C5 witness: a concrete tick with zPrev = 1, zNow = 2, anchor (10, 20),
pan (4, 6): the anchor world point is preserved. -/
theorem c5_witness :
    (10 - (loopAnchorComp 1 2 10 20 4 6).1) / 2 = ((10 : ℚ) - 4) / 1 ∧
    (20 - (loopAnchorComp 1 2 10 20 4 6).2) / 2 = ((20 : ℚ) - 6) / 1 :=
  c5_anchor_invariant 1 2 10 20 4 6 (by decide) (by decide)

/-! ## Coordinate conversion (ZoomPan2D.toWorld / toScreen, zoom-pan-2d.ts lines 731-747) -/

/-- ZoomPan2D.toWorld (zoom-pan-2d.ts lines 731-741): screen CSS pixel to
world.  z is exp(currentLogZ). -/
def toWorld (z tx ty x y : ℚ) : ℚ × ℚ := ((x - tx) / z, (y - ty) / z)

/-- ZoomPan2D.toScreen (zoom-pan-2d.ts lines 744-747): world to screen CSS
pixel. -/
def toScreen (z tx ty wx wy : ℚ) : ℚ × ℚ := (wx * z + tx, wy * z + ty)

/-- C7: for every camera state (any positive zoom z = exp(currentLogZ) and
any pan) and every CSS pixel point (x, y), toScreen(toWorld(x, y)) equals
(x, y) to within 1e-6 (in the exact rational model the round trip is in
fact exact); no clamping happens between the two conversions. -/
theorem c7_round_trip (z tx ty x y : ℚ) (hz : 0 < z) :
    |(toScreen z tx ty (toWorld z tx ty x y).1 (toWorld z tx ty x y).2).1 - x|
        ≤ 1 / 1000000 ∧
    |(toScreen z tx ty (toWorld z tx ty x y).1 (toWorld z tx ty x y).2).2 - y|
        ≤ 1 / 1000000 := by
  unfold toWorld toScreen
  have hx : (x - tx) / z * z + tx - x = 0 := by field_simp
  have hy : (y - ty) / z * z + ty - y = 0 := by field_simp
  constructor
  · simp only [hx, abs_zero]
    positivity
  · simp only [hy, abs_zero]
    positivity

/-- C7 witness: the round trip evaluated at zoom 3, pan (7, -2), screen
point (5, 11). -/
theorem c7_witness :
    |(toScreen 3 7 (-2) (toWorld 3 7 (-2) 5 11).1 (toWorld 3 7 (-2) 5 11).2).1 - 5|
        ≤ (1 : ℚ) / 1000000 ∧
    |(toScreen 3 7 (-2) (toWorld 3 7 (-2) 5 11).1 (toWorld 3 7 (-2) 5 11).2).2 - 11|
        ≤ (1 : ℚ) / 1000000 :=
  c7_round_trip 3 7 (-2) 5 11 (by decide)

/-! ## Zoom range maintenance (ZoomPan2D zoom state, zoom-pan-2d.ts lines 70-170, 225-236, 658-695, 709-726, 756-762)

The zoom state is kept in log space: lmin and lmax are LOG_MIN and
LOG_MAX (the logs of minZoom and maxZoom), cur is currentLogZ and tgt is
targetLogZ.  Since exp is strictly monotone, minZoom ≤ exp(v) ≤ maxZoom
is equivalent to lmin ≤ v ≤ lmax, which is the form proved here. -/

/-- The zoom-related fields of ZoomPan2D. -/
structure ZoomSt where
  lmin : ℚ
  lmax : ℚ
  cur : ℚ
  tgt : ℚ
deriving DecidableEq

/-- The zoom mutations of ZoomPan2D, with real-valued inputs already taken
to log space:
setTarget l is setTargetLogZoomAtScreen (reached from onWheel,
zoomToAtScreen and zoomByFactorAtScreen);
raw l bypass is zoomToAtScreenRaw with l = log of the requested zoom, the
bypass flag covering its early returns (non-finite input, unchanged zoom);
tick az snap is the zoom easing of the loop, az = 1 - exp(-approachKZoom
dt) in (0,1), with snap true when a smooth reset finishes and snaps the
state to zero;
fit l bypass is zoomDocumentToFit (bypass when no document is set);
setRange lm lM is setZoomRange with the logs of the new bounds. -/
inductive ZoomOp where
  | setTarget (l : ℚ)
  | raw (l : ℚ) (bypass : Bool)
  | tick (az : ℚ) (snap : Bool)
  | fit (l : ℚ) (bypass : Bool)
  | resetSmooth
  | resetInstant
  | setRange (lm lM : ℚ)
deriving DecidableEq

/-- One zoom mutation.  lfloor is log(1e-8), the floor that
zoomToAtScreenRaw applies below minZoom (max(1e-8, minZoom) in linear
space); its only relevant property is lfloor ≤ 0. -/
def zoomStep (lfloor : ℚ) (s : ZoomSt) : ZoomOp → ZoomSt
  | .setTarget l => { s with tgt := clampQ l s.lmin s.lmax }
  | .raw l bypass =>
    if bypass then s
    else
      let c := clampQ l (max lfloor s.lmin) s.lmax
      { s with cur := c, tgt := c }
  | .tick az snap =>
    let c := s.cur + (s.tgt - s.cur) * az
    if snap then { s with cur := 0, tgt := 0 } else { s with cur := c }
  | .fit l bypass =>
    if bypass then s
    else
      let c := clampQ l s.lmin s.lmax
      { s with cur := c, tgt := c }
  | .resetSmooth => { s with tgt := 0 }
  | .resetInstant => { s with cur := 0, tgt := 0 }
  | .setRange lm lM =>
    { lmin := lm, lmax := lM, cur := s.cur, tgt := clampQ s.tgt lm lM }

/-- Input sanity of a zoom mutation: the easing factor of a tick lies in
[0, 1] (it is 1 - exp(-k dt) with k, dt > 0), and any zoom range installed
by setZoomRange contains zoom 1 (log 0), as the default range [0.5, 10]
does. -/
def ZoomOp.wf : ZoomOp → Prop
  | .tick az _ => 0 ≤ az ∧ az ≤ 1
  | .setRange lm lM => lm ≤ 0 ∧ 0 ≤ lM
  | _ => True

instance : DecidablePred ZoomOp.wf := by
  intro op
  cases op <;> simp only [ZoomOp.wf] <;> infer_instance

/-- The target invariant: the zoom range contains 1 and targetLogZ lies in
[LOG_MIN, LOG_MAX], i.e. minZoom ≤ exp(targetLogZ) ≤ maxZoom. -/
def ZoomSt.tgtInv (s : ZoomSt) : Prop :=
  s.lmin ≤ 0 ∧ 0 ≤ s.lmax ∧ s.lmin ≤ s.tgt ∧ s.tgt ≤ s.lmax

/-- The full invariant: the zoom range contains 1 and both currentLogZ and
targetLogZ lie in [LOG_MIN, LOG_MAX]. -/
def ZoomSt.inv (s : ZoomSt) : Prop :=
  s.lmin ≤ 0 ∧ 0 ≤ s.lmax ∧ s.lmin ≤ s.cur ∧ s.cur ≤ s.lmax ∧
    s.lmin ≤ s.tgt ∧ s.tgt ≤ s.lmax

instance (s : ZoomSt) : Decidable s.tgtInv := by unfold ZoomSt.tgtInv; infer_instance

instance (s : ZoomSt) : Decidable s.inv := by unfold ZoomSt.inv; infer_instance

/-- Recognizer for setZoomRange, the one operation that does not re-clamp
currentLogZ. -/
def ZoomOp.isSetRange : ZoomOp → Bool
  | .setRange _ _ => true
  | _ => false

theorem clampQ_mem (x lo hi : ℚ) (h : lo ≤ hi) :
    lo ≤ clampQ x lo hi ∧ clampQ x lo hi ≤ hi := by
  unfold clampQ
  constructor
  · exact le_min h (le_max_left lo x)
  · exact min_le_left hi (max lo x)

theorem zoomStep_tgtInv (lfloor : ℚ) (hf : lfloor ≤ 0) (s : ZoomSt) (op : ZoomOp)
    (hwf : op.wf) (hs : s.tgtInv) : (zoomStep lfloor s op).tgtInv := by
  obtain ⟨h1, h2, h3, h4⟩ := hs
  have hle : s.lmin ≤ s.lmax := le_trans h1 h2
  cases op with
  | setTarget l =>
    obtain ⟨a, b⟩ := clampQ_mem l s.lmin s.lmax hle
    exact ⟨h1, h2, a, b⟩
  | raw l bypass =>
    cases bypass with
    | true => exact ⟨h1, h2, h3, h4⟩
    | false =>
      have hlo : max lfloor s.lmin ≤ s.lmax := max_le (le_trans hf h2) hle
      obtain ⟨a, b⟩ := clampQ_mem l (max lfloor s.lmin) s.lmax hlo
      exact ⟨h1, h2, le_trans (le_max_right lfloor s.lmin) a, b⟩
  | tick az snap =>
    cases snap with
    | true => exact ⟨h1, h2, h1, h2⟩
    | false => exact ⟨h1, h2, h3, h4⟩
  | fit l bypass =>
    cases bypass with
    | true => exact ⟨h1, h2, h3, h4⟩
    | false =>
      obtain ⟨a, b⟩ := clampQ_mem l s.lmin s.lmax hle
      exact ⟨h1, h2, a, b⟩
  | resetSmooth => exact ⟨h1, h2, h1, h2⟩
  | resetInstant => exact ⟨h1, h2, h1, h2⟩
  | setRange lm lM =>
    obtain ⟨a, b⟩ := hwf
    obtain ⟨c, d⟩ := clampQ_mem s.tgt lm lM (le_trans a b)
    exact ⟨a, b, c, d⟩

theorem zoomStep_inv (lfloor : ℚ) (hf : lfloor ≤ 0) (s : ZoomSt) (op : ZoomOp)
    (hop : op.isSetRange = false) (hwf : op.wf) (hs : s.inv) :
    (zoomStep lfloor s op).inv := by
  obtain ⟨h1, h2, h3, h4, h5, h6⟩ := hs
  have hle : s.lmin ≤ s.lmax := le_trans h1 h2
  cases op with
  | setTarget l =>
    obtain ⟨a, b⟩ := clampQ_mem l s.lmin s.lmax hle
    exact ⟨h1, h2, h3, h4, a, b⟩
  | raw l bypass =>
    cases bypass with
    | true => exact ⟨h1, h2, h3, h4, h5, h6⟩
    | false =>
      have hlo : max lfloor s.lmin ≤ s.lmax := max_le (le_trans hf h2) hle
      obtain ⟨a, b⟩ := clampQ_mem l (max lfloor s.lmin) s.lmax hlo
      have a' := le_trans (le_max_right lfloor s.lmin) a
      exact ⟨h1, h2, a', b, a', b⟩
  | tick az snap =>
    obtain ⟨a0, a1⟩ := hwf
    cases snap with
    | true => exact ⟨h1, h2, h1, h2, h1, h2⟩
    | false =>
      refine ⟨h1, h2, ?_, ?_, h5, h6⟩
      · show s.lmin ≤ s.cur + (s.tgt - s.cur) * az
        nlinarith
      · show s.cur + (s.tgt - s.cur) * az ≤ s.lmax
        nlinarith
  | fit l bypass =>
    cases bypass with
    | true => exact ⟨h1, h2, h3, h4, h5, h6⟩
    | false =>
      obtain ⟨a, b⟩ := clampQ_mem l s.lmin s.lmax hle
      exact ⟨h1, h2, a, b, a, b⟩
  | resetSmooth => exact ⟨h1, h2, h3, h4, h1, h2⟩
  | resetInstant => exact ⟨h1, h2, h1, h2, h1, h2⟩
  | setRange lm lM => simp [ZoomOp.isSetRange] at hop

theorem zoomSteps_tgtInv (lfloor : ℚ) (hf : lfloor ≤ 0) (ops : List ZoomOp)
    (s : ZoomSt) (hops : ∀ op ∈ ops, op.wf) (hs : s.tgtInv) :
    (ops.foldl (zoomStep lfloor) s).tgtInv := by
  induction ops generalizing s with
  | nil => exact hs
  | cons op rest ih =>
    simp only [List.foldl_cons]
    refine ih _ (fun o ho => hops o (List.mem_cons_of_mem _ ho)) ?_
    exact zoomStep_tgtInv lfloor hf s op (hops op (List.mem_cons_self _ _)) hs

/-- C2 counterexample: the claim fails at setZoomRange.  On an instance
built with log range [-1, 1] (minZoom = 1/e, maxZoom = e, zoom 1), the
two-call sequence zoomToAtScreenRaw to zoom e^(3/4) followed by
setZoomRange shrinking the log range to [-1/2, 1/2] (still containing
zoom 1, both calls well formed) leaves currentLogZ = 3/4 above the new
LOG_MAX = 1/2, i.e. exp(currentLogZ) > maxZoom: setZoomRange re-clamps
only targetLogZ, never currentLogZ. -/
theorem c2_counterexample :
    (ZoomSt.inv ⟨-1, 1, 0, 0⟩) ∧
    (∀ op ∈ [ZoomOp.raw (3/4) false, ZoomOp.setRange (-1/2) (1/2)], op.wf) ∧
    ¬ ([ZoomOp.raw (3/4) false, ZoomOp.setRange (-1/2) (1/2)].foldl
        (zoomStep (-19)) ⟨-1, 1, 0, 0⟩).inv := by
  refine ⟨by decide, ?_, by decide⟩
  intro op hop
  fin_cases hop
  · exact trivial
  · exact ⟨by decide, by decide⟩

/-- C2 amended: provided every installed zoom range contains zoom 1 (true
of the defaults, and required of setZoomRange arguments) and easing
factors lie in [0,1]: (a) after every sequence of operations starting from
a state whose target is in range, minZoom ≤ exp(targetLogZ) ≤ maxZoom
still holds; and (b) every single operation other than setZoomRange also
preserves minZoom ≤ exp(currentLogZ) ≤ maxZoom.  setZoomRange itself
re-clamps only targetLogZ and can leave exp(currentLogZ) outside the new
range, which is the uncorrectable part of the original claim. -/
theorem c2_amended (lfloor : ℚ) (hf : lfloor ≤ 0) :
    (∀ (ops : List ZoomOp) (s : ZoomSt), (∀ op ∈ ops, op.wf) → s.tgtInv →
      (ops.foldl (zoomStep lfloor) s).tgtInv) ∧
    (∀ (s : ZoomSt) (op : ZoomOp), op.isSetRange = false → op.wf → s.inv →
      (zoomStep lfloor s op).inv) := by
  constructor
  · intro ops s hops hs
    exact zoomSteps_tgtInv lfloor hf ops s hops hs
  · intro s op hop hwf hs
    exact zoomStep_inv lfloor hf s op hop hwf hs

/-- C2 witness: the amended invariants applied at lfloor = -19, a concrete
operation sequence (a wheel retarget, a tick with easing 1/2, a smooth
reset) from the state with log range [-1, 2], and a single tick from the
same state. -/
theorem c2_witness :
    (([ZoomOp.setTarget 5, ZoomOp.tick (1/2) false,
        ZoomOp.resetSmooth].foldl (zoomStep (-19)) ⟨-1, 2, 0, 0⟩).tgtInv) ∧
    ((zoomStep (-19) ⟨-1, 2, 0, 0⟩ (.tick (1/2) false)).inv) := by
  constructor
  · exact (c2_amended (-19) (by decide)).1 _ _ (by decide) (by decide)
  · exact (c2_amended (-19) (by decide)).2 _ _ (by decide) (by decide) (by decide)

/-! ## HistoryManager (src/lib/commands/history-manager.ts) -/

/-- The two command stacks of HistoryManager.  The top of each stack is the
last list element (JS push/pop operate on the array end; shift drops index
0, the oldest). -/
structure Hist (C : Type) where
  undoS : List C
  redoS : List C
  maxSize : ℕ
deriving DecidableEq

/-- The merge capability of a command type: canMerge a b models
a.canMerge(b) (false when the method is absent), mergeWith a b models
a.merge(b), with none for a null return (the source then keeps the old
top: merge(command) ?? lastCommand). -/
structure CmdOps (C : Type) where
  canMerge : C → C → Bool
  mergeWith : C → C → Option C

/-- The non-merging path of HistoryManager.addCommand (history-manager.ts
lines 38-44): push onto the undo stack and drop the oldest entry if the
stack now exceeds maxHistorySize. -/
def pushTrim {C : Type} (h : Hist C) (c : C) : Hist C :=
  let u := h.undoS ++ [c]
  { undoS := if h.maxSize < u.length then u.drop 1 else u,
    redoS := [], maxSize := h.maxSize }

/-- HistoryManager.addCommand (history-manager.ts lines 24-45): empty the
redo stack; if the top of the undo stack can merge with the new command,
replace the top with the merged command; otherwise push and trim. -/
def addCommand {C : Type} (ops : CmdOps C) (h : Hist C) (c : C) : Hist C :=
  match h.undoS.getLast? with
  | some last =>
    if ops.canMerge last c then
      { undoS := h.undoS.dropLast ++ [(ops.mergeWith last c).getD last],
        redoS := [], maxSize := h.maxSize }
    else pushTrim h c
  | none => pushTrim h c

theorem addCommand_redoS {C : Type} (ops : CmdOps C) (h : Hist C) (c : C) :
    (addCommand ops h c).redoS = [] := by
  unfold addCommand pushTrim
  cases h.undoS.getLast? with
  | none => rfl
  | some last =>
    by_cases hm : ops.canMerge last c
    · simp [hm]
    · simp [hm]

theorem addCommand_of_canMerge_false {C : Type} (ops : CmdOps C)
    (hcm : ∀ a b, ops.canMerge a b = false) (h : Hist C) (c : C) :
    addCommand ops h c = pushTrim h c := by
  unfold addCommand
  cases h.undoS.getLast? with
  | none => rfl
  | some last => simp [hcm]

theorem addCommand_maxSize {C : Type} (ops : CmdOps C) (h : Hist C) (c : C) :
    (addCommand ops h c).maxSize = h.maxSize := by
  unfold addCommand pushTrim
  cases h.undoS.getLast? with
  | none => rfl
  | some last =>
    by_cases hm : ops.canMerge last c
    · simp [hm]
    · simp [hm]

theorem pushTrim_undoS {C : Type} (h : Hist C) (c : C) :
    (pushTrim h c).undoS = if h.maxSize < h.undoS.length + 1
      then (h.undoS ++ [c]).drop 1 else h.undoS ++ [c] := by
  unfold pushTrim
  simp

theorem pushTrim_undoS_drop {C : Type} (ops : CmdOps C)
    (hcm : ∀ a b, ops.canMerge a b = false) (m : ℕ) (cmds : List C) :
    (cmds.foldl (addCommand ops) ⟨[], [], m⟩).undoS
      = cmds.drop (cmds.length - m) ∧
    (cmds.foldl (addCommand ops) ⟨[], [], m⟩).maxSize = m := by
  induction cmds using List.reverseRecOn with
  | nil => exact ⟨by simp, rfl⟩
  | append_singleton l c ih =>
    obtain ⟨ih1, ih2⟩ := ih
    rw [List.foldl_append, List.foldl_cons, List.foldl_nil,
      addCommand_of_canMerge_false ops hcm]
    refine ⟨?_, by unfold pushTrim; exact ih2⟩
    rw [pushTrim_undoS, ih1, ih2]
    have hD : (l.drop (l.length - m)).length = l.length - (l.length - m) :=
      List.length_drop _ _
    have hR : (l ++ [c]).length - m = l.length + 1 - m := by simp
    rw [hR]
    by_cases hml : l.length < m
    · have h0 : l.length - m = 0 := by omega
      have h1 : l.length + 1 - m = 0 := by omega
      rw [h0, h1, List.drop_zero, List.drop_zero]
      have hno : ¬ m < l.length + 1 := by omega
      rw [if_neg hno]
    · push_neg at hml
      have hDm : (l.drop (l.length - m)).length = m := by omega
      have hcond : m < (l.drop (l.length - m)).length + 1 := by omega
      rw [if_pos hcond]
      by_cases hm0 : m = 0
      · subst hm0
        have hD0 : l.drop (l.length - 0) = [] := by
          rw [Nat.sub_zero, List.drop_length]
        rw [hD0]
        have hfin : (l ++ [c]).length ≤ l.length + 1 - 0 := by simp
        rw [List.drop_of_length_le hfin]
        simp
      · have h1 : (1 : ℕ) ≤ (l.drop (l.length - m)).length := by omega
        rw [List.drop_append_of_le_length h1, List.drop_drop]
        have h2 : l.length - m + 1 = l.length + 1 - m := by omega
        rw [h2]
        have h3 : l.length + 1 - m ≤ l.length := by omega
        rw [List.drop_append_of_le_length h3]

/-- C8: addCommand always empties the redo stack; when the undo top can
merge with the new command it replaces the top with top.merge(cmd) (or
keeps the top if merge returns null) without pushing; otherwise it pushes
and drops the oldest entry once the stack would exceed maxHistorySize, so
that after K > maxHistorySize non-merging additions from an empty history
the undo stack is exactly the most recent maxHistorySize commands in
order. -/
theorem c8_addCommand (C : Type) (ops : CmdOps C) :
    (∀ (h : Hist C) (c : C), (addCommand ops h c).redoS = []) ∧
    (∀ (h : Hist C) (c top : C) (ts : List C), h.undoS = ts ++ [top] →
      ops.canMerge top c = true →
      (addCommand ops h c).undoS = ts ++ [(ops.mergeWith top c).getD top]) ∧
    (∀ (m : ℕ) (cmds : List C), (∀ a b, ops.canMerge a b = false) →
      m < cmds.length →
      (cmds.foldl (addCommand ops) ⟨[], [], m⟩).undoS
          = cmds.drop (cmds.length - m) ∧
      (cmds.foldl (addCommand ops) ⟨[], [], m⟩).undoS.length = m) := by
  refine ⟨addCommand_redoS ops, ?_, ?_⟩
  · intro h c top ts hu hm
    unfold addCommand
    rw [hu, List.getLast?_concat]
    simp only [Option.some.injEq]
    simp only [hm, if_true]
    rw [List.dropLast_concat]
  · intro m cmds hcm hK
    obtain ⟨h1, _⟩ := pushTrim_undoS_drop ops hcm m cmds
    refine ⟨h1, ?_⟩
    rw [h1, List.length_drop]
    omega

/-- C8 witness: the three parts of c8_addCommand at concrete inputs over
natural-number commands: an addCommand empties a nonempty redo stack; an
always-merging rule replaces the top 2 with 2.merge(5) = 7; five
non-merging additions with maxHistorySize 3 leave exactly the last three
commands. -/
theorem c8_witness :
    ((addCommand ⟨fun _ _ => false, fun a _ => some a⟩ ⟨[1, 2], [9], 3⟩ 5).redoS
        = []) ∧
    ((addCommand ⟨fun _ _ => true, fun a b => some (a + b)⟩ ⟨[1, 2], [], 3⟩ 5).undoS
        = [1, 7]) ∧
    (([10, 20, 30, 40, 50].foldl
        (addCommand (⟨fun _ _ => false, fun a _ => some a⟩ : CmdOps ℕ)) ⟨[], [], 3⟩).undoS
        = [30, 40, 50]) := by
  refine ⟨(c8_addCommand ℕ _).1 _ _, ?_, ?_⟩
  · have h := (c8_addCommand ℕ ⟨fun _ _ => true, fun a b => some (a + b)⟩).2.1
      ⟨[1, 2], [], 3⟩ 5 2 [1] rfl rfl
    simpa using h
  · have h := (c8_addCommand ℕ ⟨fun _ _ => false, fun a _ => some a⟩).2.2
      3 [10, 20, 30, 40, 50] (fun _ _ => rfl) (by decide)
    rw [h.1]
    rfl

/-- The call sequence of claim C10 on a HistoryManager. -/
inductive HistOp (C : Type) where
  | add (c : C)
  | undoOp
  | redoOp

/-- One HistoryManager call: addCommand, undo (history-manager.ts lines
50-62: pop the undo top, run the command undo, push it onto redo; no-op
when empty) or redo (lines 67-79, the mirror; note it performs no trim).
The command side effects live on the layer and do not change the stacks,
so they are omitted here (the C4 development models them in full). -/
def histStep {C : Type} (ops : CmdOps C) (h : Hist C) : HistOp C → Hist C
  | .add c => addCommand ops h c
  | .undoOp =>
    match h.undoS.getLast? with
    | none => h
    | some c =>
      { undoS := h.undoS.dropLast, redoS := h.redoS ++ [c], maxSize := h.maxSize }
  | .redoOp =>
    match h.redoS.getLast? with
    | none => h
    | some c =>
      { undoS := h.undoS ++ [c], redoS := h.redoS.dropLast, maxSize := h.maxSize }

theorem pushTrim_undoS_length_le {C : Type} (h : Hist C) (c : C)
    (hs : h.undoS.length ≤ h.maxSize) :
    (pushTrim h c).undoS.length ≤ h.maxSize := by
  rw [pushTrim_undoS]
  by_cases hc : h.maxSize < h.undoS.length + 1
  · rw [if_pos hc]
    simp only [List.length_drop, List.length_append, List.length_cons, List.length_nil]
    omega
  · rw [if_neg hc]
    simp only [List.length_append, List.length_cons, List.length_nil]
    omega

theorem addCommand_undoS_length_le {C : Type} (ops : CmdOps C) (h : Hist C) (c : C)
    (hs : h.undoS.length ≤ h.maxSize) :
    (addCommand ops h c).undoS.length ≤ h.maxSize := by
  unfold addCommand
  split
  · rename_i last hu
    split
    · rename_i hm
      have hne : h.undoS ≠ [] := by
        intro h0
        rw [h0] at hu
        simp at hu
      have h1 : 1 ≤ h.undoS.length := List.length_pos_of_ne_nil hne
      simp only [List.length_append, List.length_dropLast, List.length_cons,
        List.length_nil]
      omega
    · exact pushTrim_undoS_length_le h c hs
  · exact pushTrim_undoS_length_le h c hs

theorem histStep_maxSize {C : Type} (ops : CmdOps C) (h : Hist C) (op : HistOp C) :
    (histStep ops h op).maxSize = h.maxSize := by
  cases op with
  | add c => exact addCommand_maxSize ops h c
  | undoOp =>
    simp only [histStep]
    cases h.undoS.getLast? <;> rfl
  | redoOp =>
    simp only [histStep]
    cases h.redoS.getLast? <;> rfl

theorem histStep_sum_le {C : Type} (ops : CmdOps C) (h : Hist C) (op : HistOp C)
    (hs : h.undoS.length + h.redoS.length ≤ h.maxSize) :
    (histStep ops h op).undoS.length + (histStep ops h op).redoS.length
        ≤ h.maxSize := by
  cases op with
  | add c =>
    simp only [histStep]
    rw [addCommand_redoS]
    simp only [List.length_nil, Nat.add_zero]
    exact addCommand_undoS_length_le ops h c (by omega)
  | undoOp =>
    simp only [histStep]
    cases hu : h.undoS.getLast? with
    | none => exact hs
    | some c =>
      have hne : h.undoS ≠ [] := by
        intro h0
        rw [h0] at hu
        simp at hu
      have h1 : 1 ≤ h.undoS.length := List.length_pos_of_ne_nil hne
      simp only [List.length_append, List.length_dropLast, List.length_cons,
        List.length_nil]
      omega
  | redoOp =>
    simp only [histStep]
    cases hr : h.redoS.getLast? with
    | none => exact hs
    | some c =>
      have hne : h.redoS ≠ [] := by
        intro h0
        rw [h0] at hr
        simp at hr
      have h1 : 1 ≤ h.redoS.length := List.length_pos_of_ne_nil hne
      simp only [List.length_append, List.length_dropLast, List.length_cons,
        List.length_nil]
      omega

/-- C10: starting from empty stacks with a fixed maxHistorySize, every
sequence of addCommand, undo and redo calls keeps the total number of
stored commands (undo stack plus redo stack) at most maxHistorySize; in
particular redo never grows the undo stack beyond the cap even though it
performs no trim, because each redo removes one command from the redo
stack for the one it adds. -/
theorem c10_stack_cap (C : Type) (ops : CmdOps C) (m : ℕ) (calls : List (HistOp C)) :
    (calls.foldl (histStep ops) ⟨[], [], m⟩).undoS.length
      + (calls.foldl (histStep ops) ⟨[], [], m⟩).redoS.length ≤ m := by
  have main : ∀ (l : List (HistOp C)) (h : Hist C),
      h.undoS.length + h.redoS.length ≤ h.maxSize →
      (l.foldl (histStep ops) h).undoS.length + (l.foldl (histStep ops) h).redoS.length
        ≤ (l.foldl (histStep ops) h).maxSize := by
    intro l
    induction l with
    | nil => intro h hs; exact hs
    | cons op rest ih =>
      intro h hs
      simp only [List.foldl_cons]
      refine ih _ ?_
      rw [histStep_maxSize]
      exact histStep_sum_le ops h op hs
  have hmax : ∀ (l : List (HistOp C)) (h : Hist C),
      (l.foldl (histStep ops) h).maxSize = h.maxSize := by
    intro l
    induction l with
    | nil => intro h; rfl
    | cons op rest ih =>
      intro h
      simp only [List.foldl_cons]
      rw [ih, histStep_maxSize]
  have h1 := main calls ⟨[], [], m⟩ (by simp)
  rwa [hmax calls ⟨[], [], m⟩] at h1

/-! ## Rasters and stroke geometry (src/lib/commands/stroke-command.ts)

A pixel holds an optional colour code; none is transparent.  Brush strokes
write the stroke colour opaquely (source-over with an opaque colour), the
eraser writes transparency (destination-out with opaque black).  The
browser rasterizer behind context.stroke and context.arc is outside the
repository; it is modelled by centre sampling: a pixel inside the canvas
is touched when its centre lies within half the line width of the stroked
segment (round caps make this a capsule) or inside the filled disk. -/

/-- A pixel value: none is transparent, some c an opaque colour code. -/
abbrev Pix := Option ℕ

/-- A raster: pixel values indexed by integer device coordinates. -/
abbrev Raster := ℤ → ℤ → Pix

/-- IStrokePoint (commands/type.ts): a recorded stroke point in layer
local coordinates with its pressure. -/
structure SPoint where
  x : ℚ
  y : ℚ
  pressure : ℚ
deriving DecidableEq

/-- The stroke mode: brush or eraser. -/
inductive BrushMode where
  | brush
  | eraser
deriving DecidableEq

/-- IStrokeData (commands/type.ts): the payload of a StrokeCommand. -/
structure StrokeData where
  points : List SPoint
  color : ℕ
  size : ℚ
  mode : BrushMode
deriving DecidableEq

def sqQ (q : ℚ) : ℚ := q * q

def distSq (x1 y1 x2 y2 : ℚ) : ℚ := sqQ (x1 - x2) + sqQ (y1 - y2)

/-- Squared distance from a point to the segment from (x1, y1) to
(x2, y2), via the clamped orthogonal projection. -/
def distSqSeg (qx qy x1 y1 x2 y2 : ℚ) : ℚ :=
  let dx := x2 - x1
  let dy := y2 - y1
  let len2 := sqQ dx + sqQ dy
  if len2 = 0 then distSq qx qy x1 y1
  else
    let t := clampQ (((qx - x1) * dx + (qy - y1) * dy) / len2) 0 1
    distSq qx qy (x1 + t * dx) (y1 + t * dy)

/-- The centre coordinate of pixel index i. -/
def pixCenter (i : ℤ) : ℚ := (i : ℚ) + 1/2

/-- Centre-sampled coverage of a round-capped stroked segment of line
width lw. -/
def segHits (x1 y1 x2 y2 lw : ℚ) (i j : ℤ) : Bool :=
  decide (distSqSeg (pixCenter i) (pixCenter j) x1 y1 x2 y2 ≤ sqQ (lw / 2))

/-- Centre-sampled coverage of a filled disk. -/
def diskHits (cx cy r : ℚ) (i j : ℤ) : Bool :=
  decide (distSq (pixCenter i) (pixCenter j) cx cy ≤ sqQ r)

/-- Whether a pixel index lies on the w by h canvas. -/
def inCanvas (w h : ℕ) (i j : ℤ) : Bool :=
  decide (0 ≤ i ∧ i < (w : ℤ) ∧ 0 ≤ j ∧ j < (h : ℤ))

/-- The colour written by a drawing operation: the stroke colour for the
brush, transparency for the eraser (destination-out). -/
def inkOf (mode : BrushMode) (color : ℕ) : Pix :=
  match mode with
  | .brush => some color
  | .eraser => none

/-- One canvas drawing call: pixels of the canvas whose centre the shape
covers receive the ink, all others keep their value. -/
def paintPix (w h : ℕ) (hit : ℤ → ℤ → Bool) (ink : Pix) (base : Raster) : Raster :=
  fun i j => if inCanvas w h i j && hit i j then ink else base i j

/-- A stroked segment with its line width. -/
structure Seg where
  x1 : ℚ
  y1 : ℚ
  x2 : ℚ
  y2 : ℚ
  lw : ℚ
deriving DecidableEq

/-- The segments drawn by StrokeCommand.performStroke (stroke-command.ts
lines 144-155): one per consecutive point pair, with line width
max(size * pressure of the second point, 0.001). -/
def strokeSegs (size : ℚ) : List SPoint → List Seg
  | a :: b :: rest =>
    ⟨a.x, a.y, b.x, b.y, max (size * b.pressure) (1/1000)⟩ :: strokeSegs size (b :: rest)
  | _ => []

/-- Painting one segment. -/
def paintSeg (w h : ℕ) (ink : Pix) (base : Raster) (s : Seg) : Raster :=
  paintPix w h (segHits s.x1 s.y1 s.x2 s.y2 s.lw) ink base

/-- StrokeCommand.performStroke (stroke-command.ts lines 114-159): nothing
for an empty point list, a filled disk of radius size * pressure / 2 for a
single point, else one round-capped segment per consecutive pair. -/
def performStroke (w h : ℕ) (d : StrokeData) (base : Raster) : Raster :=
  match d.points with
  | [] => base
  | [p] => paintPix w h (diskHits p.x p.y (d.size * p.pressure / 2)) (inkOf d.mode d.color) base
  | _ :: _ :: _ =>
    (strokeSegs d.size d.points).foldl (paintSeg w h (inkOf d.mode d.color)) base

/-- An integer pixel rectangle (x, y, width, height). -/
structure BRect where
  rx : ℤ
  ry : ℤ
  rw : ℤ
  rh : ℤ
deriving DecidableEq

def inBRect (r : BRect) (i j : ℤ) : Bool :=
  decide (r.rx ≤ i ∧ i < r.rx + r.rw ∧ r.ry ≤ j ∧ j < r.ry + r.rh)

/-- StrokeCommand.calculateBoundingBox (stroke-command.ts lines 24-57):
each point expanded by its own radius size * pressure / 2, the union
padded by 2 pixels, floored and ceiled to integers and clipped to the
canvas; none when empty or degenerate. -/
def calcBoundingBox (w h : ℕ) (d : StrokeData) : Option BRect :=
  match d.points with
  | [] => none
  | p :: ps =>
    let rad := fun (q : SPoint) => d.size * q.pressure / 2
    let minX := ps.foldl (fun acc q => min acc (q.x - rad q)) (p.x - rad p)
    let minY := ps.foldl (fun acc q => min acc (q.y - rad q)) (p.y - rad p)
    let maxX := ps.foldl (fun acc q => max acc (q.x + rad q)) (p.x + rad p)
    let maxY := ps.foldl (fun acc q => max acc (q.y + rad q)) (p.y + rad p)
    let bx := max 0 (qFloor (minX - 2))
    let byy := max 0 (qFloor (minY - 2))
    let rgt := min (w : ℤ) (qCeil (maxX + 2))
    let bot := min (h : ℤ) (qCeil (maxY + 2))
    let bw := rgt - bx
    let bh := bot - byy
    if bw ≤ 0 ∨ bh ≤ 0 then none else some ⟨bx, byy, bw, bh⟩

/-- The concrete stroke refuting claim C3 on a 400 by 400 layer: two
points at pressures 1/5 and 1 with size 20, a straight segment of the pen
pressed harder at the end. -/
def c3Stroke : StrokeData :=
  { points := [⟨60, 200, 1/5⟩, ⟨160, 200, 1⟩], color := 7, size := 20, mode := .brush }

/-- C3: the code contradicts the claim (and the specification, which asks
for expansion by the maximal radius along the stroke): the bounding box
expands each point only by its own radius, but the segment from the first
point is stroked with the width of the second point.  For c3Stroke the box
is (56, 188, 116, 24), yet execute() paints pixel (52, 200): its centre is
about 7.52 pixels from the segment, inside the half-width 10 capsule.
That pixel changes from transparent to colour 7 and lies outside the box,
so the snapshot does not cover it and undo leaves it painted. -/
theorem c3_bbox_violation :
    calcBoundingBox 400 400 c3Stroke = some ⟨56, 188, 116, 24⟩ ∧
    performStroke 400 400 c3Stroke (fun _ _ => none) 52 200 = some 7 ∧
    (fun _ _ => (none : Pix)) 52 200 ≠ some 7 ∧
    inBRect ⟨56, 188, 116, 24⟩ 52 200 = false := by
  refine ⟨by decide, by decide, by decide, by decide⟩

/-! ## StrokeCommand state (stroke-command.ts lines 17-219) -/

/-- The mutable state of a StrokeCommand: stroke data, the pre-stroke
snapshot (none when pixel capture failed), the bounding box and the
executed flag.  The source crops the snapshot to the bounding box
(fitSnapshotToBoundingBox); since putImageData writes the cropped rows
back at the same offsets, the model keeps the full snapshot raster and
applies the bounding-box region on restore, which writes the identical
pixels. -/
structure StrokeCmd where
  data : StrokeData
  prevImage : Option Raster
  bbox : Option BRect
  executed : Bool

/-- The StrokeCommand constructor (stroke-command.ts lines 201-219):
copies the stroke data, stores the snapshot and the alreadyApplied flag,
and computes the bounding box from the points. -/
def mkStrokeCmd (w h : ℕ) (d : StrokeData) (snapshot : Option Raster)
    (alreadyApplied : Bool) : StrokeCmd :=
  { data := d, prevImage := snapshot, bbox := calcBoundingBox w h d,
    executed := alreadyApplied }

/-- The region a command restores: its bounding box, or the whole canvas
when the box is degenerate (the snapshot is then kept uncropped and
putImageData writes it at (0,0)). -/
def cmdRegion (w h : ℕ) (c : StrokeCmd) : BRect :=
  c.bbox.getD ⟨0, 0, (w : ℤ), (h : ℤ)⟩

/-- StrokeCommand.restorePreviousState (stroke-command.ts lines 102-112):
write the snapshot back over the region, or clear the whole canvas when no
snapshot was captured. -/
def restorePrev (w h : ℕ) (c : StrokeCmd) (cur : Raster) : Raster :=
  match c.prevImage with
  | some s => fun i j => if inBRect (cmdRegion w h c) i j then s i j else cur i j
  | none => fun i j => if inBRect ⟨0, 0, (w : ℤ), (h : ℤ)⟩ i j then none else cur i j

/-- StrokeCommand.execute (stroke-command.ts lines 165-179): a no-op when
already executed; otherwise capture the current pixels if no snapshot
exists, then replay the stroke and mark executed. -/
def cmdExecute (w h : ℕ) (c : StrokeCmd) (cur : Raster) : StrokeCmd × Raster :=
  if c.executed then (c, cur)
  else
    let c1 := match c.prevImage with
      | some _ => c
      | none => { c with prevImage := some cur }
    ({ c1 with executed := true }, performStroke w h c.data cur)

/-- StrokeCommand.undo (stroke-command.ts lines 181-188): a no-op when not
executed; otherwise restore the snapshot region and clear the flag. -/
def cmdUndo (w h : ℕ) (c : StrokeCmd) (cur : Raster) : StrokeCmd × Raster :=
  if c.executed then ({ c with executed := false }, restorePrev w h c cur)
  else (c, cur)

/-- StrokeCommand.canMerge (stroke-command.ts lines 190-192) always
returns false (!!other && false): stroke merging is intentionally
disabled. -/
def strokeCanMerge (_ _ : StrokeCmd) : Bool := false

/-- StrokeCommand.merge (stroke-command.ts lines 194-199) returns the
receiver unchanged. -/
def strokeMergeWith (a _ : StrokeCmd) : Option StrokeCmd := some a

/-- The CmdOps instance of StrokeCommand. -/
def strokeCmdOps : CmdOps StrokeCmd := ⟨strokeCanMerge, strokeMergeWith⟩

theorem strokeCanMerge_false (a b : StrokeCmd) : strokeCanMerge a b = false := rfl

/-! ## CanvasLayer (src/unnamed/part_006): pose, stroke primitives, undo/redo -/

/-- The CanvasLayer state relevant to drawing and history: canvas size,
raster, pose (x, y, scale, rotation via the precomputed cos(-rotation)
and sin(-rotation) that Math.cos and Math.sin return, anchor), the
in-progress stroke buffers and the optional HistoryManager. -/
structure Sys where
  w : ℕ
  h : ℕ
  raster : Raster
  px : ℚ
  py : ℚ
  scale : ℚ
  cosr : ℚ
  sinr : ℚ
  anchorCenter : Bool
  drawing : Bool
  pts : List SPoint
  curColor : ℕ
  curSize : ℚ
  curMode : BrushMode
  startSnap : Option Raster
  lastX : ℚ
  lastY : ℚ
  hist : Option (Hist StrokeCmd)

/-- CanvasLayer.toLocalPoint (part_006 lines 202-225): subtract the layer
translation, rotate back (cosr = cos(-rotation), sinr = sin(-rotation)),
divide by the scale, add the anchor offset. -/
def toLocalPoint (s : Sys) (wx wy : ℚ) : ℚ × ℚ :=
  let dx := wx - s.px
  let dy := wy - s.py
  let rxv := dx * s.cosr - dy * s.sinr
  let ryv := dx * s.sinr + dy * s.cosr
  let lx := rxv / s.scale
  let ly := ryv / s.scale
  let ax := if s.anchorCenter then (s.w : ℚ) / 2 else 0
  let ay := if s.anchorCenter then (s.h : ℚ) / 2 else 0
  (lx + ax, ly + ay)

/-- CanvasLayer.beginStroke (part_006 lines 61-88): record the local
start point, enter drawing state, capture the full pre-stroke snapshot
when a HistoryManager is attached (pixel capture succeeds in this model),
and reset the point buffer to the start point with default pressure 1. -/
def beginStroke (s : Sys) (wx wy : ℚ) : Sys :=
  let l := toLocalPoint s wx wy
  { s with lastX := l.1, lastY := l.2, drawing := true,
           startSnap := if s.hist.isSome then some s.raster else none,
           pts := [⟨l.1, l.2, 1⟩] }

/-- CanvasLayer.stroke (part_006 lines 90-138): a no-op when not drawing;
otherwise backfill the first point pressure on the first call, record the
new point, remember colour, size and mode, and draw one round-capped
segment of width size * pressure from the previous local point. -/
def strokeCall (s : Sys) (wx wy : ℚ) (color : ℕ) (size pressure : ℚ)
    (mode : BrushMode) : Sys :=
  if s.drawing = false then s else
  let l := toLocalPoint s wx wy
  let pts1 := match s.pts with
    | [p] => [⟨p.x, p.y, pressure⟩]
    | l0 => l0
  let r1 := paintPix s.w s.h (segHits s.lastX s.lastY l.1 l.2 (size * pressure))
    (inkOf mode color) s.raster
  { s with pts := pts1 ++ [⟨l.1, l.2, pressure⟩],
           curColor := color, curSize := size, curMode := mode,
           raster := r1, lastX := l.1, lastY := l.2 }

/-- CanvasLayer.endStroke (part_006 lines 140-166): a no-op when not
drawing; otherwise leave drawing state and, when a HistoryManager is
attached and at least one point was recorded, build a StrokeCommand with
the begin-time snapshot and alreadyApplied = true and addCommand it; the
per-stroke buffers are cleared in every case. -/
def endStroke (s : Sys) : Sys :=
  if s.drawing = false then s else
  let base := { s with drawing := false, pts := [], startSnap := none }
  match s.hist with
  | none => base
  | some hm =>
    if s.pts.length = 0 then base
    else
      let cmd := mkStrokeCmd s.w s.h ⟨s.pts, s.curColor, s.curSize, s.curMode⟩
        s.startSnap true
      { base with hist := some (addCommand strokeCmdOps hm cmd) }

/-- CanvasLayer.undo (part_006 lines 266-272) with HistoryManager.undo
(history-manager.ts lines 50-62): when the undo stack is nonempty, pop its
top, run the command undo against the layer raster and push the (now
unexecuted) command onto the redo stack. -/
def layerUndo (s : Sys) : Sys :=
  match s.hist with
  | none => s
  | some hm =>
    match hm.undoS.getLast? with
    | none => s
    | some c =>
      let r := cmdUndo s.w s.h c s.raster
      { s with raster := r.2,
               hist := some ⟨hm.undoS.dropLast, hm.redoS ++ [r.1], hm.maxSize⟩ }

/-- CanvasLayer.redo (part_006 lines 277-283) with HistoryManager.redo
(history-manager.ts lines 67-79): when the redo stack is nonempty, pop its
top, execute it against the layer raster and push it onto the undo
stack. -/
def layerRedo (s : Sys) : Sys :=
  match s.hist with
  | none => s
  | some hm =>
    match hm.redoS.getLast? with
    | none => s
    | some c =>
      let r := cmdExecute s.w s.h c s.raster
      { s with raster := r.2,
               hist := some ⟨hm.undoS ++ [r.1], hm.redoS.dropLast, hm.maxSize⟩ }

/-- One stroke(wx, wy, color, size, pressure, mode) input of a gesture. -/
structure GCall where
  wx : ℚ
  wy : ℚ
  pressure : ℚ
deriving DecidableEq

/-- A full beginStroke / stroke* / endStroke gesture: the begin point, the
stroke calls and the colour, size and mode passed to each call. -/
structure Gesture where
  sx : ℚ
  sy : ℚ
  calls : List GCall
  color : ℕ
  size : ℚ
  mode : BrushMode
deriving DecidableEq

/-- The stroke calls of a gesture, applied in order. -/
def strokeFold (g : Gesture) (s : Sys) : Sys :=
  g.calls.foldl (fun t c => strokeCall t c.wx c.wy g.color g.size c.pressure g.mode) s

/-- A complete gesture: beginStroke, the stroke calls, endStroke. -/
def applyGesture (s : Sys) (g : Gesture) : Sys :=
  endStroke (strokeFold g (beginStroke s g.sx g.sy))

theorem strokeCall_preserved (s : Sys) (wx wy : ℚ) (color : ℕ) (size pressure : ℚ)
    (mode : BrushMode) (hd : s.drawing = true) :
    (strokeCall s wx wy color size pressure mode).drawing = true ∧
    (strokeCall s wx wy color size pressure mode).hist = s.hist ∧
    (strokeCall s wx wy color size pressure mode).pts ≠ [] ∧
    (strokeCall s wx wy color size pressure mode).w = s.w ∧
    (strokeCall s wx wy color size pressure mode).h = s.h ∧
    (strokeCall s wx wy color size pressure mode).startSnap = s.startSnap := by
  unfold strokeCall
  rw [hd]
  simp

theorem foldG_light (g : Gesture) (calls : List GCall) :
    ∀ (t : Sys), t.drawing = true →
      (calls.foldl (fun u c => strokeCall u c.wx c.wy g.color g.size c.pressure g.mode) t).drawing
          = true ∧
      (calls.foldl (fun u c => strokeCall u c.wx c.wy g.color g.size c.pressure g.mode) t).hist
          = t.hist ∧
      (t.pts ≠ [] →
        (calls.foldl (fun u c => strokeCall u c.wx c.wy g.color g.size c.pressure g.mode) t).pts
          ≠ []) := by
  induction calls with
  | nil => intro t ht; exact ⟨ht, rfl, fun hp => hp⟩
  | cons c rest ih =>
    intro t ht
    simp only [List.foldl_cons]
    obtain ⟨p1, p2, p3, _, _, _⟩ :=
      strokeCall_preserved t c.wx c.wy g.color g.size c.pressure g.mode ht
    obtain ⟨q1, q2, q3⟩ := ih _ p1
    exact ⟨q1, q2.trans p2, fun _ => q3 p3⟩

theorem pushTrim_getLast {C : Type} (hm : Hist C) (cmd : C) (hmx : 1 ≤ hm.maxSize) :
    (pushTrim hm cmd).undoS.getLast? = some cmd := by
  rw [pushTrim_undoS]
  by_cases hc : hm.maxSize < hm.undoS.length + 1
  · rw [if_pos hc]
    have h1 : (1 : ℕ) ≤ hm.undoS.length := by omega
    rw [List.drop_append_of_le_length h1, List.getLast?_concat]
  · rw [if_neg hc, List.getLast?_concat]

theorem pushTrim_length {C : Type} (hm : Hist C) (cmd : C) :
    (pushTrim hm cmd).undoS.length
      = if hm.maxSize < hm.undoS.length + 1 then hm.undoS.length
        else hm.undoS.length + 1 := by
  rw [pushTrim_undoS]
  by_cases hc : hm.maxSize < hm.undoS.length + 1
  · rw [if_pos hc, if_pos hc]
    simp
  · rw [if_neg hc, if_neg hc]
    simp

/-- C9: for a CanvasLayer with an attached HistoryManager (whose commands
never merge, as StrokeCommand.canMerge is constantly false), every
beginStroke followed by zero or more stroke calls leaves the history
untouched, and the matching endStroke adds exactly one StrokeCommand: the
undo stack becomes the old stack plus the new command on top (trimmed by
one at the cap), its top is the new command, and its length grows by one
unless the cap was reached.  The zero-call tap case is included because
beginStroke itself records one point.  A beginStroke without endStroke
therefore contributes no command. -/
theorem c9_exactly_one_command (s : Sys) (hm : Hist StrokeCmd) (g : Gesture)
    (hh : s.hist = some hm) (hmx : 1 ≤ hm.maxSize) :
    (strokeFold g (beginStroke s g.sx g.sy)).hist = s.hist ∧
    ∃ cmd : StrokeCmd,
      (applyGesture s g).hist = some (pushTrim hm cmd) ∧
      (pushTrim hm cmd).undoS.getLast? = some cmd ∧
      (pushTrim hm cmd).undoS.length
        = if hm.maxSize < hm.undoS.length + 1 then hm.undoS.length
          else hm.undoS.length + 1 := by
  have hb1 : (beginStroke s g.sx g.sy).drawing = true := rfl
  have hb2 : (beginStroke s g.sx g.sy).hist = s.hist := rfl
  have hb3 : (beginStroke s g.sx g.sy).pts ≠ [] := by
    unfold beginStroke
    simp
  obtain ⟨q1, q2, q3⟩ := foldG_light g g.calls (beginStroke s g.sx g.sy) hb1
  have hmid : (strokeFold g (beginStroke s g.sx g.sy)).hist = s.hist := by
    unfold strokeFold
    rw [q2, hb2]
  refine ⟨hmid, ?_⟩
  set t := strokeFold g (beginStroke s g.sx g.sy) with hts
  have htd : t.drawing = true := q1
  have hth : t.hist = some hm := by rw [hmid, hh]
  have htp : t.pts ≠ [] := q3 hb3
  refine ⟨mkStrokeCmd t.w t.h ⟨t.pts, t.curColor, t.curSize, t.curMode⟩ t.startSnap true,
    ?_, pushTrim_getLast hm _ hmx, pushTrim_length hm _⟩
  show (endStroke t).hist = _
  unfold endStroke
  rw [htd, hth]
  have hlen : ¬ t.pts.length = 0 := by
    simpa [List.length_eq_zero] using htp
  simp only [Bool.true_eq_false, if_false, hlen, if_false]
  simp only [addCommand_of_canMerge_false strokeCmdOps strokeCanMerge_false]

/-- A concrete 4 by 4 transparent CanvasLayer with an attached, empty
HistoryManager of capacity 50. -/
def c9Sys : Sys :=
  { w := 4, h := 4, raster := fun _ _ => none, px := 0, py := 0, scale := 1,
    cosr := 1, sinr := 0, anchorCenter := false, drawing := false, pts := [],
    curColor := 5, curSize := 2, curMode := .brush, startSnap := none,
    lastX := 0, lastY := 0, hist := some ⟨[], [], 50⟩ }

/-- C9 witness: the zero-call tap gesture at (2, 2) on the concrete layer
adds exactly one command to the empty history. -/
theorem c9_witness :
    (strokeFold ⟨2, 2, [], 5, 2, .brush⟩ (beginStroke c9Sys 2 2)).hist = c9Sys.hist ∧
    ∃ cmd : StrokeCmd,
      (applyGesture c9Sys ⟨2, 2, [], 5, 2, .brush⟩).hist
        = some (pushTrim ⟨[], [], 50⟩ cmd) ∧
      (pushTrim (⟨[], [], 50⟩ : Hist StrokeCmd) cmd).undoS.getLast? = some cmd ∧
      (pushTrim (⟨[], [], 50⟩ : Hist StrokeCmd) cmd).undoS.length
        = if (50 : ℕ) < ([] : List StrokeCmd).length + 1 then ([] : List StrokeCmd).length
          else ([] : List StrokeCmd).length + 1 :=
  c9_exactly_one_command c9Sys ⟨[], [], 50⟩ ⟨2, 2, [], 5, 2, .brush⟩ rfl (by decide)

/-! ## Undo and redo round trip (claim C4): infrastructure -/

/-- Apply a function n times (n sequential undo() or redo() calls). -/
def iterApp {α : Type} (f : α → α) : ℕ → α → α
  | 0, x => x
  | n + 1, x => iterApp f n (f x)

theorem iterApp_add {α : Type} (f : α → α) (a b : ℕ) :
    ∀ x : α, iterApp f (a + b) x = iterApp f b (iterApp f a x) := by
  induction a with
  | zero => intro x; rw [Nat.zero_add]; rfl
  | succ n ih =>
    intro x
    have h1 : n + 1 + b = (n + b) + 1 := by omega
    rw [h1]
    show iterApp f (n + b) (f x) = _
    rw [ih (f x)]
    rfl

theorem iterApp_fix {α : Type} (f : α → α) (n : ℕ) (x : α) (hf : f x = x) :
    iterApp f n x = x := by
  induction n with
  | zero => rfl
  | succ m ih =>
    show iterApp f m (f x) = x
    rw [hf, ih]

/-- The command history laid over the raster evolution: Chain W H cmds B F
says that starting from raster B, the commands of cmds were applied in
order (each one executed, each holding the raster it was applied on as its
snapshot) and produced the raster F. -/
def Chain (W H : ℕ) : List StrokeCmd → Raster → Raster → Prop
  | [], b, f => f = b
  | c :: rest, b, f =>
    c.executed = true ∧ c.prevImage = some b ∧
      Chain W H rest (performStroke W H c.data b) f

theorem chain_append (W H : ℕ) :
    ∀ (cmds : List StrokeCmd) (B R : Raster), Chain W H cmds B R →
      ∀ (c : StrokeCmd), c.executed = true → c.prevImage = some R →
        Chain W H (cmds ++ [c]) B (performStroke W H c.data R) := by
  intro cmds
  induction cmds with
  | nil =>
    intro B R hch c hex hprev
    have hRB : R = B := hch
    subst hRB
    exact ⟨hex, hprev, rfl⟩
  | cons c0 rest ih =>
    intro B R hch c hex hprev
    obtain ⟨h1, h2, h3⟩ := hch
    exact ⟨h1, h2, ih _ _ h3 c hex hprev⟩

theorem chain_elem (W H : ℕ) :
    ∀ (cmds : List StrokeCmd) (B R : Raster), Chain W H cmds B R →
      ∀ c ∈ cmds, c.executed = true ∧ c.prevImage.isSome = true := by
  intro cmds
  induction cmds with
  | nil => intro B R _ c hc; simp at hc
  | cons c0 rest ih =>
    intro B R hch c hc
    obtain ⟨h1, h2, h3⟩ := hch
    rcases List.mem_cons.mp hc with hc0 | hcr
    · subst hc0
      exact ⟨h1, by rw [h2]; rfl⟩
    · exact ih _ _ h3 c hcr

theorem chain_drop1 (W H : ℕ) (cmds : List StrokeCmd) (B R : Raster)
    (hch : Chain W H cmds B R) :
    ∃ B2, Chain W H (cmds.drop 1) B2 R := by
  cases cmds with
  | nil => exact ⟨B, hch⟩
  | cons c rest =>
    obtain ⟨_, _, h3⟩ := hch
    exact ⟨performStroke W H c.data B, h3⟩

theorem chain_foldl (W H : ℕ) :
    ∀ (cmds : List StrokeCmd) (B R : Raster), Chain W H cmds B R →
      R = cmds.foldl (fun r c => performStroke W H c.data r) B := by
  intro cmds
  induction cmds with
  | nil => intro B R hch; exact hch
  | cons c rest ih =>
    intro B R hch
    obtain ⟨_, _, h3⟩ := hch
    exact ih _ _ h3

theorem strokeSegs_concat (size : ℚ) (q p2 : SPoint) :
    ∀ (rest : List SPoint),
      strokeSegs size ((rest ++ [q]) ++ [p2])
        = strokeSegs size (rest ++ [q])
          ++ [⟨q.x, q.y, p2.x, p2.y, max (size * p2.pressure) (1/1000)⟩]
  | [] => by simp [strokeSegs]
  | a :: rest1 => by
    cases rest1 with
    | nil => simp [strokeSegs]
    | cons b rest2 =>
      have ih := strokeSegs_concat size q p2 (b :: rest2)
      simp only [List.cons_append] at ih ⊢
      rw [strokeSegs, strokeSegs, ih]
      simp

theorem strokeCall_eq_of_cons (s : Sys) (wx wy : ℚ) (color : ℕ) (size pressure : ℚ)
    (mode : BrushMode) (hd : s.drawing = true)
    (a b : SPoint) (l : List SPoint) (hp : s.pts = a :: b :: l) :
    strokeCall s wx wy color size pressure mode = { s with
      pts := s.pts ++ [⟨(toLocalPoint s wx wy).1, (toLocalPoint s wx wy).2, pressure⟩],
      curColor := color, curSize := size, curMode := mode,
      raster := paintPix s.w s.h
        (segHits s.lastX s.lastY (toLocalPoint s wx wy).1 (toLocalPoint s wx wy).2
          (size * pressure))
        (inkOf mode color) s.raster,
      lastX := (toLocalPoint s wx wy).1, lastY := (toLocalPoint s wx wy).2 } := by
  unfold strokeCall
  rw [hd]
  simp only [Bool.true_eq_false, if_false]
  rw [hp]

theorem strokeCall_eq_of_single (s : Sys) (wx wy : ℚ) (color : ℕ) (size pressure : ℚ)
    (mode : BrushMode) (hd : s.drawing = true)
    (p : SPoint) (hp : s.pts = [p]) :
    strokeCall s wx wy color size pressure mode = { s with
      pts := [⟨p.x, p.y, pressure⟩]
        ++ [⟨(toLocalPoint s wx wy).1, (toLocalPoint s wx wy).2, pressure⟩],
      curColor := color, curSize := size, curMode := mode,
      raster := paintPix s.w s.h
        (segHits s.lastX s.lastY (toLocalPoint s wx wy).1 (toLocalPoint s wx wy).2
          (size * pressure))
        (inkOf mode color) s.raster,
      lastX := (toLocalPoint s wx wy).1, lastY := (toLocalPoint s wx wy).2 } := by
  unfold strokeCall
  rw [hd]
  simp only [Bool.true_eq_false, if_false]
  rw [hp]

/-- The invariant maintained over the stroke calls of one gesture: the
layer is drawing, canvas size, snapshot buffer and history are untouched,
the current colour, size and mode are those of the gesture, at least two
points are recorded, the last recorded point is the segment start of the
next call, and the raster equals the replay of the recorded points
(strokeSegs) over the begin-time raster.  This is the heart of live
drawing = replay. -/
def GInv (g : Gesture) (W H : ℕ) (base : Raster) (snap : Option Raster)
    (hm : Option (Hist StrokeCmd)) (t : Sys) : Prop :=
  t.drawing = true ∧ t.w = W ∧ t.h = H ∧ t.startSnap = snap ∧ t.hist = hm ∧
  t.curColor = g.color ∧ t.curSize = g.size ∧ t.curMode = g.mode ∧
  2 ≤ t.pts.length ∧
  (∃ rest q, t.pts = rest ++ [q] ∧ t.lastX = q.x ∧ t.lastY = q.y) ∧
  t.raster = (strokeSegs g.size t.pts).foldl
    (paintSeg W H (inkOf g.mode g.color)) base

theorem stepG_GInv (g : Gesture) (W H : ℕ) (base : Raster) (snap : Option Raster)
    (hm : Option (Hist StrokeCmd)) (t : Sys) (c : GCall)
    (hwc : 1/1000 ≤ g.size * c.pressure)
    (ht : GInv g W H base snap hm t) :
    GInv g W H base snap hm
      (strokeCall t c.wx c.wy g.color g.size c.pressure g.mode) := by
  obtain ⟨h1, h2, h3, h4, h5, h6, h7, h8, h9, ⟨rest, q, hq, hlx, hly⟩, h11⟩ := ht
  obtain ⟨a, b, l, hab⟩ : ∃ a b l, t.pts = a :: b :: l := by
    cases hp : t.pts with
    | nil => rw [hp] at h9; simp at h9
    | cons a tl =>
      cases htl : tl with
      | nil => rw [hp, htl] at h9; simp at h9
      | cons b l =>
        subst htl
        first
        | exact ⟨a, b, l, hp⟩
        | exact ⟨a, b, l, rfl⟩
  rw [strokeCall_eq_of_cons t c.wx c.wy g.color g.size c.pressure g.mode h1 a b l hab]
  set lp : ℚ × ℚ := toLocalPoint t c.wx c.wy with hlp
  set np : SPoint := ⟨lp.1, lp.2, c.pressure⟩ with hnp
  refine ⟨h1, h2, h3, h4, h5, rfl, rfl, rfl, ?_, ?_, ?_⟩
  · show 2 ≤ (t.pts ++ [np]).length
    simp only [List.length_append, List.length_cons, List.length_nil]
    omega
  · exact ⟨t.pts, np, rfl, rfl, rfl⟩
  · show paintPix t.w t.h
      (segHits t.lastX t.lastY lp.1 lp.2 (g.size * c.pressure))
      (inkOf g.mode g.color) t.raster
        = (strokeSegs g.size (t.pts ++ [np])).foldl
            (paintSeg W H (inkOf g.mode g.color)) base
    have hq2 : t.pts ++ [np] = (rest ++ [q]) ++ [np] := by rw [hq]
    rw [hq2, strokeSegs_concat g.size q np rest, ← hq, List.foldl_append]
    simp only [List.foldl_cons, List.foldl_nil]
    rw [← h11]
    have hmax : max (g.size * np.pressure) (1/1000) = g.size * c.pressure :=
      max_eq_left hwc
    unfold paintSeg
    simp only [hmax]
    rw [hlx, hly, h2, h3]

theorem foldG_GInv (g : Gesture) (W H : ℕ) (base : Raster) (snap : Option Raster)
    (hm : Option (Hist StrokeCmd)) :
    ∀ (calls : List GCall) (t : Sys),
      (∀ c ∈ calls, 1/1000 ≤ g.size * c.pressure) →
      GInv g W H base snap hm t →
      GInv g W H base snap hm
        (calls.foldl (fun u c => strokeCall u c.wx c.wy g.color g.size c.pressure g.mode) t) := by
  intro calls
  induction calls with
  | nil => intro t _ ht; exact ht
  | cons c rest ih =>
    intro t hw ht
    simp only [List.foldl_cons]
    exact ih _ (fun c2 hc2 => hw c2 (List.mem_cons_of_mem _ hc2))
      (stepG_GInv g W H base snap hm t c (hw c (List.mem_cons_self _ _)) ht)

theorem beginStroke_eq (s : Sys) (wx wy : ℚ) (hm : Hist StrokeCmd)
    (hh : s.hist = some hm) :
    beginStroke s wx wy = { s with
      lastX := (toLocalPoint s wx wy).1, lastY := (toLocalPoint s wx wy).2,
      drawing := true, startSnap := some s.raster,
      pts := [⟨(toLocalPoint s wx wy).1, (toLocalPoint s wx wy).2, 1⟩] } := by
  unfold beginStroke
  rw [hh]
  rfl

theorem endStroke_eq (s : Sys) (hm : Hist StrokeCmd) (hd : s.drawing = true)
    (hh : s.hist = some hm) (hp : s.pts ≠ []) :
    endStroke s = { s with
      drawing := false, pts := [], startSnap := none,
      hist := some (pushTrim hm
        (mkStrokeCmd s.w s.h ⟨s.pts, s.curColor, s.curSize, s.curMode⟩
          s.startSnap true)) } := by
  unfold endStroke
  rw [hd, hh]
  simp only [Bool.true_eq_false, if_false]
  have hlen : ¬ s.pts.length = 0 := by
    simpa [List.length_eq_zero] using hp
  rw [if_neg hlen]
  rw [addCommand_of_canMerge_false strokeCmdOps strokeCanMerge_false]

theorem performStroke_two (w h : ℕ) (a b : SPoint) (l : List SPoint) (color : ℕ)
    (size : ℚ) (mode : BrushMode) (base : Raster) :
    performStroke w h ⟨a :: b :: l, color, size, mode⟩ base
      = (strokeSegs size (a :: b :: l)).foldl (paintSeg w h (inkOf mode color)) base := rfl

/-- A complete gesture with at least one stroke call, on a layer with an
attached history, behaves as: paint the replay of the recorded stroke data
on the begin-time raster, and push one StrokeCommand carrying the
begin-time snapshot, marked alreadyApplied.  The canvas size is
unchanged. -/
theorem applyGesture_spec (s : Sys) (hm : Hist StrokeCmd) (g : Gesture)
    (hh : s.hist = some hm) (hc : g.calls ≠ [])
    (hw : ∀ c ∈ g.calls, 1/1000 ≤ g.size * c.pressure) :
    ∃ d : StrokeData,
      (applyGesture s g).raster = performStroke s.w s.h d s.raster ∧
      (applyGesture s g).hist
        = some (pushTrim hm (mkStrokeCmd s.w s.h d (some s.raster) true)) ∧
      (applyGesture s g).w = s.w ∧ (applyGesture s g).h = s.h := by
  obtain ⟨c1, rest, hcz⟩ := List.exists_cons_of_ne_nil hc
  have hbeg := beginStroke_eq s g.sx g.sy hm hh
  set L : ℚ × ℚ := toLocalPoint s g.sx g.sy with hL
  set s0R : Sys := { s with
    lastX := L.1, lastY := L.2, drawing := true, startSnap := some s.raster,
    pts := [⟨L.1, L.2, 1⟩] } with hs0R
  have hs1 := strokeCall_eq_of_single s0R c1.wx c1.wy g.color g.size c1.pressure g.mode
    rfl ⟨L.1, L.2, 1⟩ rfl
  set l1 : ℚ × ℚ := toLocalPoint s0R c1.wx c1.wy with hl1
  set np : SPoint := ⟨l1.1, l1.2, c1.pressure⟩ with hnp
  set s1R : Sys := { s0R with
    pts := [⟨L.1, L.2, c1.pressure⟩] ++ [np],
    curColor := g.color, curSize := g.size, curMode := g.mode,
    raster := paintPix s0R.w s0R.h
      (segHits s0R.lastX s0R.lastY l1.1 l1.2 (g.size * c1.pressure))
      (inkOf g.mode g.color) s0R.raster,
    lastX := l1.1, lastY := l1.2 } with hs1R
  have hw1 : 1/1000 ≤ g.size * c1.pressure := by
    refine hw c1 ?_
    rw [hcz]
    exact List.mem_cons_self _ _
  have hGinv1 : GInv g s.w s.h s.raster (some s.raster) (some hm) s1R := by
    refine ⟨rfl, rfl, rfl, rfl, hh, rfl, rfl, rfl, by simp, ?_, ?_⟩
    · exact ⟨[⟨L.1, L.2, c1.pressure⟩], np, rfl, rfl, rfl⟩
    · show paintPix s.w s.h (segHits L.1 L.2 l1.1 l1.2 (g.size * c1.pressure))
        (inkOf g.mode g.color) s.raster
        = (strokeSegs g.size ([⟨L.1, L.2, c1.pressure⟩] ++ [np])).foldl
            (paintSeg s.w s.h (inkOf g.mode g.color)) s.raster
      have hsegs : strokeSegs g.size ([(⟨L.1, L.2, c1.pressure⟩ : SPoint)] ++ [np])
          = [⟨L.1, L.2, np.x, np.y, max (g.size * np.pressure) (1/1000)⟩] := by
        simp [strokeSegs]
      rw [hsegs]
      simp only [List.foldl_cons, List.foldl_nil]
      unfold paintSeg
      have hmax : max (g.size * np.pressure) (1/1000) = g.size * c1.pressure :=
        max_eq_left hw1
      rw [hmax]
  have hGinvT : GInv g s.w s.h s.raster (some s.raster) (some hm)
      (rest.foldl
        (fun u c => strokeCall u c.wx c.wy g.color g.size c.pressure g.mode) s1R) := by
    refine foldG_GInv g s.w s.h s.raster (some s.raster) (some hm) rest s1R ?_ hGinv1
    intro c2 hc2
    refine hw c2 ?_
    rw [hcz]
    exact List.mem_cons_of_mem _ hc2
  set t : Sys := rest.foldl
    (fun u c => strokeCall u c.wx c.wy g.color g.size c.pressure g.mode) s1R with hts
  have hfold : strokeFold g (beginStroke s g.sx g.sy) = t := by
    unfold strokeFold
    rw [hbeg, hcz]
    simp only [List.foldl_cons]
    rw [hs1]
  obtain ⟨t1, t2, t3, t4, t5, t6, t7, t8, t9, ⟨trest, tq, htq, _, _⟩, t11⟩ := hGinvT
  have htp : t.pts ≠ [] := by
    rw [htq]
    simp
  have hend := endStroke_eq t hm t1 (by rw [t5]) htp
  obtain ⟨a, b, l, hab⟩ : ∃ a b l, t.pts = a :: b :: l := by
    cases hp : t.pts with
    | nil => rw [hp] at t9; simp at t9
    | cons a tl =>
      cases htl : tl with
      | nil => rw [hp, htl] at t9; simp at t9
      | cons b l =>
        subst htl
        first
        | exact ⟨a, b, l, hp⟩
        | exact ⟨a, b, l, rfl⟩
  refine ⟨⟨t.pts, g.color, g.size, g.mode⟩, ?_, ?_, ?_, ?_⟩
  · show (applyGesture s g).raster = _
    unfold applyGesture
    rw [hfold, hend]
    show t.raster = performStroke s.w s.h ⟨t.pts, g.color, g.size, g.mode⟩ s.raster
    rw [t11, hab, performStroke_two]
  · show (applyGesture s g).hist = _
    unfold applyGesture
    rw [hfold, hend]
    show some (pushTrim hm
      (mkStrokeCmd t.w t.h ⟨t.pts, t.curColor, t.curSize, t.curMode⟩ t.startSnap true)) = _
    rw [t2, t3, t4, t6, t7, t8]
  · show (applyGesture s g).w = s.w
    unfold applyGesture
    rw [hfold, hend]
    exact t2
  · show (applyGesture s g).h = s.h
    unfold applyGesture
    rw [hfold, hend]
    exact t3

theorem pushTrim_eq {C : Type} (u r : List C) (m : ℕ) (c : C) :
    pushTrim ⟨u, r, m⟩ c
      = ⟨if m < u.length + 1 then (u ++ [c]).drop 1 else u ++ [c], [], m⟩ := by
  unfold pushTrim
  simp

/-- Folding any number of well-formed gestures over a layer whose history
is a chain over some base raster yields another chain, with at most one
command added per gesture. -/
theorem gestures_fold (W H M : ℕ) :
    ∀ (gs : List Gesture) (s : Sys) (cmds : List StrokeCmd) (B : Raster),
      (∀ g ∈ gs, g.calls ≠ []) →
      (∀ g ∈ gs, ∀ c ∈ g.calls, 1/1000 ≤ g.size * c.pressure) →
      s.w = W → s.h = H →
      s.hist = some ⟨cmds, [], M⟩ →
      Chain W H cmds B s.raster →
      ∃ cmds2 B2,
        (gs.foldl applyGesture s).w = W ∧ (gs.foldl applyGesture s).h = H ∧
        (gs.foldl applyGesture s).hist = some ⟨cmds2, [], M⟩ ∧
        Chain W H cmds2 B2 ((gs.foldl applyGesture s).raster) ∧
        cmds2.length ≤ cmds.length + gs.length := by
  intro gs
  induction gs with
  | nil =>
    intro s cmds B _ _ hW hH hh hch
    exact ⟨cmds, B, hW, hH, hh, hch, by omega⟩
  | cons g rest ih =>
    intro s cmds B hcs hws hW hH hh hch
    simp only [List.foldl_cons]
    obtain ⟨d, hr, hhist, hw2, hh2⟩ := applyGesture_spec s ⟨cmds, [], M⟩ g hh
      (hcs g (List.mem_cons_self _ _)) (hws g (List.mem_cons_self _ _))
    rw [hW, hH] at hr hhist
    rw [hW] at hw2
    rw [hH] at hh2
    have hchA : Chain W H (cmds ++ [mkStrokeCmd W H d (some s.raster) true]) B
        (performStroke W H d s.raster) :=
      chain_append W H cmds B s.raster hch _ rfl rfl
    rw [pushTrim_eq] at hhist
    by_cases hcap : M < cmds.length + 1
    · rw [if_pos hcap] at hhist
      obtain ⟨B2, hch2⟩ := chain_drop1 W H _ B _ hchA
      have hch3 : Chain W H ((cmds ++ [mkStrokeCmd W H d (some s.raster) true]).drop 1)
          B2 ((applyGesture s g).raster) := by
        rw [hr]
        exact hch2
      obtain ⟨cmds2, B3, o1, o2, o3, o4, o5⟩ := ih (applyGesture s g)
        ((cmds ++ [mkStrokeCmd W H d (some s.raster) true]).drop 1) B2
        (fun g2 hg2 => hcs g2 (List.mem_cons_of_mem _ hg2))
        (fun g2 hg2 => hws g2 (List.mem_cons_of_mem _ hg2))
        hw2 hh2 hhist hch3
      refine ⟨cmds2, B3, o1, o2, o3, o4, ?_⟩
      have hd : ((cmds ++ [mkStrokeCmd W H d (some s.raster) true]).drop 1).length
          ≤ cmds.length := by
        simp only [List.length_drop, List.length_append, List.length_cons,
          List.length_nil]
        omega
      simp only [List.length_cons] at *
      omega
    · rw [if_neg hcap] at hhist
      have hch3 : Chain W H (cmds ++ [mkStrokeCmd W H d (some s.raster) true]) B
          ((applyGesture s g).raster) := by
        rw [hr]
        exact hchA
      obtain ⟨cmds2, B3, o1, o2, o3, o4, o5⟩ := ih (applyGesture s g)
        (cmds ++ [mkStrokeCmd W H d (some s.raster) true]) B
        (fun g2 hg2 => hcs g2 (List.mem_cons_of_mem _ hg2))
        (fun g2 hg2 => hws g2 (List.mem_cons_of_mem _ hg2))
        hw2 hh2 hhist hch3
      refine ⟨cmds2, B3, o1, o2, o3, o4, ?_⟩
      simp only [List.length_append, List.length_cons, List.length_nil] at *
      omega

/-- The command as HistoryManager.undo leaves it on the redo stack: the
executed flag cleared. -/
def unexec (c : StrokeCmd) : StrokeCmd := { c with executed := false }

/-- The command as HistoryManager.redo leaves it on the undo stack: the
executed flag set. -/
def reexec (c : StrokeCmd) : StrokeCmd := { c with executed := true }

/-- The raster produced by undoing the commands of cmds in reverse order
(last command first), each writing its snapshot region. -/
def undoWrites (W H : ℕ) (cmds : List StrokeCmd) (base : Raster) : Raster :=
  cmds.foldr (fun c acc => restorePrev W H c acc) base

theorem layerUndo_pop (s : Sys) (hm : Hist StrokeCmd) (l : List StrokeCmd)
    (c : StrokeCmd) (hh : s.hist = some hm) (hu : hm.undoS = l ++ [c])
    (hex : c.executed = true) :
    layerUndo s = { s with raster := restorePrev s.w s.h c s.raster,
                           hist := some ⟨l, hm.redoS ++ [unexec c], hm.maxSize⟩ } := by
  simp only [layerUndo, hh, hu, List.getLast?_concat, List.dropLast_concat]
  unfold cmdUndo
  rw [if_pos hex]
  rfl

theorem layerUndo_noop (s : Sys) (rd : List StrokeCmd) (M : ℕ)
    (hh : s.hist = some ⟨[], rd, M⟩) : layerUndo s = s := by
  simp only [layerUndo, hh]
  rfl

theorem layerRedo_pop (s : Sys) (hm : Hist StrokeCmd) (l : List StrokeCmd)
    (c : StrokeCmd) (hh : s.hist = some hm) (hr : hm.redoS = l ++ [c])
    (hex : c.executed = false) (S : Raster) (hprev : c.prevImage = some S) :
    layerRedo s = { s with raster := performStroke s.w s.h c.data s.raster,
                           hist := some ⟨hm.undoS ++ [reexec c], l, hm.maxSize⟩ } := by
  simp only [layerRedo, hh, hr, List.getLast?_concat, List.dropLast_concat]
  unfold cmdExecute
  rw [hex]
  simp only [Bool.false_eq_true, if_false]
  rw [hprev]
  rfl

theorem layerRedo_noop (s : Sys) (ud : List StrokeCmd) (M : ℕ)
    (hh : s.hist = some ⟨ud, [], M⟩) : layerRedo s = s := by
  simp only [layerRedo, hh]
  rfl

theorem undo_phase (W H M : ℕ) :
    ∀ (cmds : List StrokeCmd) (s : Sys) (rd : List StrokeCmd),
      s.w = W → s.h = H →
      s.hist = some ⟨cmds, rd, M⟩ →
      (∀ c ∈ cmds, c.executed = true) →
      (iterApp layerUndo cmds.length s).raster = undoWrites W H cmds s.raster ∧
      (iterApp layerUndo cmds.length s).hist
        = some ⟨[], rd ++ cmds.reverse.map unexec, M⟩ ∧
      (iterApp layerUndo cmds.length s).w = W ∧
      (iterApp layerUndo cmds.length s).h = H := by
  intro cmds
  induction cmds using List.reverseRecOn with
  | nil =>
    intro s rd hW hH hh _
    refine ⟨rfl, ?_, hW, hH⟩
    show s.hist = _
    rw [hh]
    simp
  | append_singleton l c ih =>
    intro s rd hW hH hh hex
    have hpop := layerUndo_pop s ⟨l ++ [c], rd, M⟩ l c hh rfl (hex c (by simp))
    have hraster2 : (layerUndo s).raster = restorePrev W H c s.raster := by
      rw [hpop, ← hW, ← hH]
    have hhist2 : (layerUndo s).hist = some ⟨l, rd ++ [unexec c], M⟩ := by
      rw [hpop]
    have hW2 : (layerUndo s).w = W := by rw [hpop]; exact hW
    have hH2 : (layerUndo s).h = H := by rw [hpop]; exact hH
    obtain ⟨i1, i2, i3, i4⟩ := ih (layerUndo s) (rd ++ [unexec c]) hW2 hH2 hhist2
      (fun c2 hc2 => hex c2 (by simp [hc2]))
    have hlen : (l ++ [c]).length = l.length + 1 := by simp
    rw [hlen]
    rw [show iterApp layerUndo (l.length + 1) s
      = iterApp layerUndo l.length (layerUndo s) from rfl]
    refine ⟨?_, ?_, i3, i4⟩
    · rw [i1, hraster2]
      unfold undoWrites
      rw [List.foldr_append]
      rfl
    · rw [i2]
      have : rd ++ [unexec c] ++ l.reverse.map unexec
          = rd ++ ((l ++ [c]).reverse.map unexec) := by
        rw [List.reverse_append]
        simp
      rw [this]

theorem redo_phase (W H M : ℕ) :
    ∀ (rl : List StrokeCmd) (s : Sys) (ud : List StrokeCmd),
      s.w = W → s.h = H →
      s.hist = some ⟨ud, rl, M⟩ →
      (∀ c ∈ rl, c.executed = false ∧ c.prevImage.isSome = true) →
      (iterApp layerRedo rl.length s).raster
        = rl.reverse.foldl (fun r c => performStroke W H c.data r) s.raster ∧
      (iterApp layerRedo rl.length s).hist
        = some ⟨ud ++ rl.reverse.map reexec, [], M⟩ ∧
      (iterApp layerRedo rl.length s).w = W ∧
      (iterApp layerRedo rl.length s).h = H := by
  intro rl
  induction rl using List.reverseRecOn with
  | nil =>
    intro s ud hW hH hh _
    refine ⟨rfl, ?_, hW, hH⟩
    show s.hist = _
    rw [hh]
    simp
  | append_singleton l c ih =>
    intro s ud hW hH hh hflags
    obtain ⟨hex, hsome⟩ := hflags c (by simp)
    obtain ⟨S, hS⟩ := Option.isSome_iff_exists.mp hsome
    have hpop := layerRedo_pop s ⟨ud, l ++ [c], M⟩ l c hh rfl hex S hS
    have hraster2 : (layerRedo s).raster = performStroke W H c.data s.raster := by
      rw [hpop, ← hW, ← hH]
    have hhist2 : (layerRedo s).hist = some ⟨ud ++ [reexec c], l, M⟩ := by
      rw [hpop]
    have hW2 : (layerRedo s).w = W := by rw [hpop]; exact hW
    have hH2 : (layerRedo s).h = H := by rw [hpop]; exact hH
    obtain ⟨i1, i2, i3, i4⟩ := ih (layerRedo s) (ud ++ [reexec c]) hW2 hH2 hhist2
      (fun c2 hc2 => hflags c2 (by simp [hc2]))
    have hlen : (l ++ [c]).length = l.length + 1 := by simp
    rw [hlen]
    rw [show iterApp layerRedo (l.length + 1) s
      = iterApp layerRedo l.length (layerRedo s) from rfl]
    refine ⟨?_, ?_, i3, i4⟩
    · rw [i1, hraster2]
      rw [List.reverse_append]
      rfl
    · rw [i2]
      have : ud ++ [reexec c] ++ l.reverse.map reexec
          = ud ++ ((l ++ [c]).reverse.map reexec) := by
        rw [List.reverse_append]
        simp
      rw [this]

/-- The pixels a stroke replay modifies: nothing for no points, the disk
for one point, the union of the segment capsules otherwise, always clipped
to the canvas. -/
def dHits (w h : ℕ) (d : StrokeData) (i j : ℤ) : Bool :=
  match d.points with
  | [] => false
  | [p] => inCanvas w h i j && diskHits p.x p.y (d.size * p.pressure / 2) i j
  | _ :: _ :: _ =>
    inCanvas w h i j
      && (strokeSegs d.size d.points).any
          (fun sg => segHits sg.x1 sg.y1 sg.x2 sg.y2 sg.lw i j)

theorem paintSegs_pix (w h : ℕ) (ink : Pix) :
    ∀ (segs : List Seg) (base : Raster) (i j : ℤ),
      (segs.foldl (paintSeg w h ink) base) i j
        = if inCanvas w h i j
            && segs.any (fun sg => segHits sg.x1 sg.y1 sg.x2 sg.y2 sg.lw i j)
          then ink else base i j := by
  intro segs
  induction segs with
  | nil =>
    intro base i j
    simp
  | cons sg rest ih =>
    intro base i j
    simp only [List.foldl_cons, List.any_cons]
    rw [ih]
    show _ = if inCanvas w h i j
      && (segHits sg.x1 sg.y1 sg.x2 sg.y2 sg.lw i j
        || rest.any (fun sg2 => segHits sg2.x1 sg2.y1 sg2.x2 sg2.y2 sg2.lw i j))
      then ink else base i j
    unfold paintSeg paintPix
    cases hc : inCanvas w h i j with
    | false => simp
    | true =>
      cases h1 : segHits sg.x1 sg.y1 sg.x2 sg.y2 sg.lw i j with
      | false => simp
      | true =>
        cases h2 : rest.any (fun sg2 => segHits sg2.x1 sg2.y1 sg2.x2 sg2.y2 sg2.lw i j) with
        | false => simp [hc, h1]
        | true => simp

theorem performStroke_pix (w h : ℕ) (d : StrokeData) (base : Raster) (i j : ℤ) :
    performStroke w h d base i j
      = if dHits w h d i j then inkOf d.mode d.color else base i j := by
  obtain ⟨pts, color, size, mode⟩ := d
  cases pts with
  | nil => simp [performStroke, dHits]
  | cons p tl =>
    cases tl with
    | nil =>
      show paintPix w h (diskHits p.x p.y (size * p.pressure / 2)) (inkOf mode color)
        base i j = _
      unfold paintPix
      rfl
    | cons q tl2 =>
      show (strokeSegs size (p :: q :: tl2)).foldl
        (paintSeg w h (inkOf mode color)) base i j = _
      rw [paintSegs_pix]
      rfl

theorem paintCmds_pix (w h : ℕ) :
    ∀ (cmds : List StrokeCmd) (base : Raster) (i j : ℤ),
      (cmds.foldl (fun r c => performStroke w h c.data r) base) i j
        = cmds.foldl (fun v c => if dHits w h c.data i j
            then inkOf c.data.mode c.data.color else v) (base i j) := by
  intro cmds
  induction cmds with
  | nil => intro base i j; rfl
  | cons c rest ih =>
    intro base i j
    simp only [List.foldl_cons]
    rw [ih, performStroke_pix]

theorem pix_fold_nohit (w h : ℕ) (i j : ℤ) :
    ∀ (cmds : List StrokeCmd) (v : Pix),
      (∀ c ∈ cmds, dHits w h c.data i j = false) →
      cmds.foldl (fun v2 c => if dHits w h c.data i j
        then inkOf c.data.mode c.data.color else v2) v = v := by
  intro cmds
  induction cmds with
  | nil => intro v _; rfl
  | cons c rest ih =>
    intro v hall
    simp only [List.foldl_cons]
    rw [hall c (List.mem_cons_self _ _)]
    simp only [Bool.false_eq_true, if_false]
    exact ih v (fun c2 hc2 => hall c2 (List.mem_cons_of_mem _ hc2))

theorem pix_fold_hit (w h : ℕ) (i j : ℤ) :
    ∀ (cmds : List StrokeCmd) (v v2 : Pix),
      (∃ c ∈ cmds, dHits w h c.data i j = true) →
      cmds.foldl (fun u c => if dHits w h c.data i j
          then inkOf c.data.mode c.data.color else u) v
        = cmds.foldl (fun u c => if dHits w h c.data i j
          then inkOf c.data.mode c.data.color else u) v2 := by
  intro cmds
  induction cmds with
  | nil =>
    intro v v2 hex
    obtain ⟨c, hc, _⟩ := hex
    simp at hc
  | cons c rest ih =>
    intro v v2 hex
    simp only [List.foldl_cons]
    cases hb : dHits w h c.data i j with
    | true => simp
    | false =>
      simp only [hb, Bool.false_eq_true, if_false]
      obtain ⟨c2, hc2, hh2⟩ := hex
      rcases List.mem_cons.mp hc2 with hceq | hcr
      · rw [hceq] at hh2
        rw [hb] at hh2
        exact absurd hh2 (by simp)
      · exact ih v v2 ⟨c2, hcr, hh2⟩

theorem restorePrev_pix_some (W H : ℕ) (c : StrokeCmd) (S : Raster)
    (hprev : c.prevImage = some S) (cur : Raster) (i j : ℤ) :
    restorePrev W H c cur i j
      = if inBRect (cmdRegion W H c) i j then S i j else cur i j := by
  unfold restorePrev
  rw [hprev]

theorem undoWrites_nohit (W H : ℕ) (i j : ℤ) :
    ∀ (cmds : List StrokeCmd) (B R : Raster),
      Chain W H cmds B R →
      (∀ c ∈ cmds, dHits W H c.data i j = false) →
      undoWrites W H cmds R i j = B i j := by
  intro cmds
  induction cmds with
  | nil =>
    intro B R hch _
    show R i j = B i j
    rw [hch]
  | cons c rest ih =>
    intro B R hch hall
    obtain ⟨hex, hprev, hch2⟩ := hch
    show restorePrev W H c (undoWrites W H rest R) i j = B i j
    rw [restorePrev_pix_some W H c B hprev]
    by_cases hreg : inBRect (cmdRegion W H c) i j = true
    · rw [if_pos hreg]
    · rw [if_neg hreg]
      have hrest := ih (performStroke W H c.data B) R hch2
        (fun c2 hc2 => hall c2 (List.mem_cons_of_mem _ hc2))
      rw [hrest, performStroke_pix, hall c (List.mem_cons_self _ _)]
      simp

/-- The per-pixel heart of the undo and redo round trip: on a chain,
re-executing every command over the raster produced by undoing them all
restores the final raster exactly.  Any pixel some command touches ends
with the ink of the last command touching it on both sides; any untouched
pixel is restored to the base value by the snapshot writes (or never
changed). -/
theorem undo_redo_raster (W H : ℕ) (cmds : List StrokeCmd) (B R : Raster)
    (hch : Chain W H cmds B R) :
    cmds.foldl (fun r c => performStroke W H c.data r) (undoWrites W H cmds R) = R := by
  funext i j
  rw [paintCmds_pix]
  have hR : R i j = cmds.foldl (fun v c => if dHits W H c.data i j
      then inkOf c.data.mode c.data.color else v) (B i j) := by
    have h1 := chain_foldl W H cmds B R hch
    rw [h1, paintCmds_pix]
  by_cases hex : ∃ c ∈ cmds, dHits W H c.data i j = true
  · rw [hR]
    exact pix_fold_hit W H i j cmds _ _ hex
  · push_neg at hex
    have hall : ∀ c ∈ cmds, dHits W H c.data i j = false := by
      intro c hc
      cases hb : dHits W H c.data i j with
      | false => rfl
      | true => exact absurd hb (hex c hc)
    rw [pix_fold_nohit W H i j cmds _ hall,
      undoWrites_nohit W H i j cmds B R hch hall, hR,
      pix_fold_nohit W H i j cmds _ hall]

/-- C4 counterexample: a zero-call tap breaks undo and redo symmetry.  On
a 4 by 4 transparent layer with an empty history, beginStroke(2,2)
followed directly by endStroke() paints nothing live (stroke was never
called), but the recorded single-point command replays a filled disk of
radius curSize * 1 / 2 = 1 on redo.  After one undo and one redo the pixel
(2, 2) is opaque colour 5, while the raster that never saw undo or redo is
transparent there, so the rasters are not pixel-identical even though the
snapshot was captured successfully. -/
theorem c4_counterexample :
    (layerRedo (layerUndo (applyGesture c9Sys ⟨2, 2, [], 5, 2, .brush⟩))).raster 2 2
      = some 5 ∧
    (applyGesture c9Sys ⟨2, 2, [], 5, 2, .brush⟩).raster 2 2 = none ∧
    (layerRedo (layerUndo (applyGesture c9Sys ⟨2, 2, [], 5, 2, .brush⟩))).raster 2 2
      ≠ (applyGesture c9Sys ⟨2, 2, [], 5, 2, .brush⟩).raster 2 2 := by
  refine ⟨by decide, by decide, by decide⟩

/-- C4 amended: for a fresh CanvasLayer with an attached HistoryManager
and any sequence of N gestures, provided each gesture makes at least one
stroke call (so that the live drawing and the replayed command paint the
same pixels; a zero-call tap replays a disk never painted live) and each
call satisfies size * pressure ≥ 0.001 (so that the live line width
equals the replayed max(size * pressure, 0.001)), calling undo() N times
and then redo() N times yields a raster pixel-identical to never having
called either.  This holds for any maxHistorySize: commands beyond the
cap are dropped, undone and redone consistently. -/
theorem c4_amended (s0 : Sys) (M : ℕ) (gs : List Gesture)
    (hh : s0.hist = some ⟨[], [], M⟩)
    (hcs : ∀ g ∈ gs, g.calls ≠ [])
    (hws : ∀ g ∈ gs, ∀ c ∈ g.calls, 1/1000 ≤ g.size * c.pressure) :
    (iterApp layerRedo gs.length (iterApp layerUndo gs.length
        (gs.foldl applyGesture s0))).raster
      = (gs.foldl applyGesture s0).raster := by
  obtain ⟨cmds, B, o1, o2, o3, o4, o5⟩ :=
    gestures_fold s0.w s0.h M gs s0 [] s0.raster hcs hws rfl rfl (by rw [hh]) rfl
  set sN := gs.foldl applyGesture s0 with hsN
  have hm_le : cmds.length ≤ gs.length := by simpa using o5
  have hex : ∀ c ∈ cmds, c.executed = true :=
    fun c hc => (chain_elem s0.w s0.h cmds B sN.raster o4 c hc).1
  obtain ⟨u1, u2, u3, u4⟩ := undo_phase s0.w s0.h M cmds sN [] o1 o2 o3 hex
  have hsplit : gs.length = cmds.length + (gs.length - cmds.length) := by omega
  have e1 : iterApp layerUndo gs.length sN
      = iterApp layerUndo (gs.length - cmds.length)
        (iterApp layerUndo cmds.length sN) := by
    conv_lhs => rw [hsplit]
    exact iterApp_add layerUndo cmds.length (gs.length - cmds.length) sN
  set sU := iterApp layerUndo cmds.length sN with hsU
  have hu2 : sU.hist = some ⟨[], [] ++ cmds.reverse.map unexec, M⟩ := u2
  have hUnoop : layerUndo sU = sU :=
    layerUndo_noop sU ([] ++ cmds.reverse.map unexec) M hu2
  have e2 : iterApp layerUndo (gs.length - cmds.length) sU = sU :=
    iterApp_fix _ _ _ hUnoop
  have hflags : ∀ c ∈ ([] ++ cmds.reverse.map unexec),
      c.executed = false ∧ c.prevImage.isSome = true := by
    intro c hc
    simp only [List.nil_append, List.mem_map, List.mem_reverse] at hc
    obtain ⟨c0, hc0, hc0eq⟩ := hc
    subst hc0eq
    refine ⟨rfl, ?_⟩
    have h2 := (chain_elem s0.w s0.h cmds B sN.raster o4 c0 hc0).2
    simpa [unexec] using h2
  obtain ⟨r1, r2, r3, r4⟩ := redo_phase s0.w s0.h M
    ([] ++ cmds.reverse.map unexec) sU [] u3 u4 hu2 hflags
  have hrlen : ([] ++ cmds.reverse.map unexec).length = cmds.length := by simp
  rw [hrlen] at r1 r2
  have e3 : iterApp layerRedo gs.length sU
      = iterApp layerRedo (gs.length - cmds.length)
        (iterApp layerRedo cmds.length sU) := by
    conv_lhs => rw [hsplit]
    exact iterApp_add layerRedo cmds.length (gs.length - cmds.length) sU
  set sR := iterApp layerRedo cmds.length sU with hsR
  have hRnoop : layerRedo sR = sR :=
    layerRedo_noop sR ([] ++ ([] ++ cmds.reverse.map unexec).reverse.map reexec) M r2
  have e4 : iterApp layerRedo (gs.length - cmds.length) sR = sR :=
    iterApp_fix _ _ _ hRnoop
  rw [e1, e2, e3, e4, r1]
  have hrev : ([] ++ cmds.reverse.map unexec).reverse = cmds.map unexec := by
    simp
  rw [hrev, List.foldl_map, u1]
  have hfun : (fun (r : Raster) (c : StrokeCmd)
        => performStroke s0.w s0.h (unexec c).data r)
      = (fun (r : Raster) (c : StrokeCmd) => performStroke s0.w s0.h c.data r) := rfl
  rw [hfun]
  exact undo_redo_raster s0.w s0.h cmds B sN.raster o4

/-- C4 witness: the amended round trip at a concrete input: one
single-call gesture (a short brush stroke from (1,1) to (3,3) of size 2)
on the concrete 4 by 4 layer; one undo then one redo reproduce the
painted raster. -/
theorem c4_witness :
    (iterApp layerRedo
        ([(⟨1, 1, [⟨3, 3, 1⟩], 5, 2, .brush⟩ : Gesture)] : List Gesture).length
        (iterApp layerUndo
          ([(⟨1, 1, [⟨3, 3, 1⟩], 5, 2, .brush⟩ : Gesture)] : List Gesture).length
          (([(⟨1, 1, [⟨3, 3, 1⟩], 5, 2, .brush⟩ : Gesture)] : List Gesture).foldl
            applyGesture c9Sys))).raster
      = (([(⟨1, 1, [⟨3, 3, 1⟩], 5, 2, .brush⟩ : Gesture)] : List Gesture).foldl
          applyGesture c9Sys).raster :=
  c4_amended c9Sys 50 [⟨1, 1, [⟨3, 3, 1⟩], 5, 2, .brush⟩] rfl
    (by decide) (by decide)
